import Mathlib

/-!
Verification of the structured-document re-translation core of the
Google-Translate-CLI repository (src/index.ts), embedded shallowly in Lean.

JavaScript strings are modelled as `List Char`.  JSON values (the parsed
content of a `.json` input file) are modelled by the nested inductive
`JsonVal`; objects are association lists in insertion order, matching the
iteration order of `Object.entries` for the documents in scope.
-/

/-- JavaScript string literal helper: the character list of a Lean string. -/
def chars (s : String) : List Char := s.data

/-- A parsed JSON value.  `numLit` keeps the numeric lexeme uninterpreted
(the pipeline never computes with numbers, it only moves them around). -/
inductive JsonVal where
  | str (s : List Char)
  | numLit (s : List Char)
  | boolean (b : Bool)
  | null
  | arr (xs : List JsonVal)
  | obj (fs : List (List Char × JsonVal))

/-- A JSON object body: keys with values, in insertion order. -/
abbrev Obj := List (List Char × JsonVal)

mutual
def beqVal : JsonVal → JsonVal → Bool
  | .str a, .str b => a = b
  | .numLit a, .numLit b => a = b
  | .boolean a, .boolean b => a = b
  | .null, .null => true
  | .arr a, .arr b => beqArr a b
  | .obj a, .obj b => beqObj a b
  | _, _ => false

def beqArr : List JsonVal → List JsonVal → Bool
  | [], [] => true
  | a :: as, b :: bs => beqVal a b && beqArr as bs
  | _, _ => false

def beqObj : Obj → Obj → Bool
  | [], [] => true
  | (k, a) :: as, (l, b) :: bs => k = l && beqVal a b && beqObj as bs
  | _, _ => false
end

mutual
theorem beqVal_iff : ∀ a b : JsonVal, beqVal a b = true ↔ a = b
  | .str a, .str b => by simp [beqVal]
  | .numLit a, .numLit b => by simp [beqVal]
  | .boolean a, .boolean b => by simp [beqVal]
  | .null, .null => by simp [beqVal]
  | .arr a, .arr b => by simp [beqVal, beqArr_iff a b]
  | .obj a, .obj b => by simp [beqVal, beqObj_iff a b]
  | .str _, .numLit _ => by simp [beqVal]
  | .str _, .boolean _ => by simp [beqVal]
  | .str _, .null => by simp [beqVal]
  | .str _, .arr _ => by simp [beqVal]
  | .str _, .obj _ => by simp [beqVal]
  | .numLit _, .str _ => by simp [beqVal]
  | .numLit _, .boolean _ => by simp [beqVal]
  | .numLit _, .null => by simp [beqVal]
  | .numLit _, .arr _ => by simp [beqVal]
  | .numLit _, .obj _ => by simp [beqVal]
  | .boolean _, .str _ => by simp [beqVal]
  | .boolean _, .numLit _ => by simp [beqVal]
  | .boolean _, .null => by simp [beqVal]
  | .boolean _, .arr _ => by simp [beqVal]
  | .boolean _, .obj _ => by simp [beqVal]
  | .null, .str _ => by simp [beqVal]
  | .null, .numLit _ => by simp [beqVal]
  | .null, .boolean _ => by simp [beqVal]
  | .null, .arr _ => by simp [beqVal]
  | .null, .obj _ => by simp [beqVal]
  | .arr _, .str _ => by simp [beqVal]
  | .arr _, .numLit _ => by simp [beqVal]
  | .arr _, .boolean _ => by simp [beqVal]
  | .arr _, .null => by simp [beqVal]
  | .arr _, .obj _ => by simp [beqVal]
  | .obj _, .str _ => by simp [beqVal]
  | .obj _, .numLit _ => by simp [beqVal]
  | .obj _, .boolean _ => by simp [beqVal]
  | .obj _, .null => by simp [beqVal]
  | .obj _, .arr _ => by simp [beqVal]

theorem beqArr_iff : ∀ a b : List JsonVal, beqArr a b = true ↔ a = b
  | [], [] => by simp [beqArr]
  | a :: as, b :: bs => by simp [beqArr, beqVal_iff a b, beqArr_iff as bs]
  | [], _ :: _ => by simp [beqArr]
  | _ :: _, [] => by simp [beqArr]

theorem beqObj_iff : ∀ a b : Obj, beqObj a b = true ↔ a = b
  | [], [] => by simp [beqObj]
  | (k, a) :: as, (l, b) :: bs => by
      simp [beqObj, beqVal_iff a b, beqObj_iff as bs, and_assoc]
  | [], _ :: _ => by simp [beqObj]
  | _ :: _, [] => by simp [beqObj]
end

instance : DecidableEq JsonVal := fun a b =>
  decidable_of_iff (beqVal a b = true) (beqVal_iff a b)

/-! ## JavaScript `String.prototype.split` on `List Char`

`findSep pat s` finds the leftmost occurrence of the (non-empty) separator
`pat` in `s`, returning the part before it and the part after it. -/

def hasPrefixSeq : List Char → List Char → Bool
  | [], _ => true
  | _ :: _, [] => false
  | p :: ps, c :: cs => p = c && hasPrefixSeq ps cs

def findSep : List Char → List Char → Option (List Char × List Char)
  | _, [] => none
  | pat, c :: cs =>
    if hasPrefixSeq pat (c :: cs) then some ([], (c :: cs).drop pat.length)
    else
      match findSep pat cs with
      | none => none
      | some (pre, post) => some (c :: pre, post)

/-- Whether `pat` occurs somewhere in `s` (as a contiguous run). -/
def containsSeq (pat s : List Char) : Bool := (findSep pat s).isSome

def jsSplitGo : Nat → List Char → List Char → List (List Char)
  | 0, _, s => [s]
  | fuel + 1, pat, s =>
    match findSep pat s with
    | none => [s]
    | some (pre, post) => pre :: jsSplitGo fuel pat post

/-- JavaScript `s.split(pat)` for a non-empty separator string `pat`. -/
def jsSplit (pat s : List Char) : List (List Char) := jsSplitGo (s.length + 1) pat s

theorem hasPrefixSeq_iff : ∀ pat s : List Char, hasPrefixSeq pat s = true ↔ pat <+: s
  | [], s => by simp [hasPrefixSeq]
  | p :: ps, [] => by simp [hasPrefixSeq]
  | p :: ps, c :: cs => by
      rw [hasPrefixSeq, List.cons_prefix_cons, Bool.and_eq_true, decide_eq_true_eq,
        hasPrefixSeq_iff ps cs]

theorem hasPrefixSeq_drop (pat s : List Char) (h : hasPrefixSeq pat s = true) :
    s = pat ++ s.drop pat.length := by
  obtain ⟨t, ht⟩ := (hasPrefixSeq_iff pat s).1 h
  subst ht
  simp

theorem findSep_none_iff (pat : List Char) (hpat : pat ≠ []) :
    ∀ s : List Char, findSep pat s = none ↔ ¬ pat <:+: s := by
  intro s
  induction s with
  | nil => simp [findSep, List.infix_nil, hpat]
  | cons c cs ih =>
    rw [findSep]
    by_cases hp : hasPrefixSeq pat (c :: cs) = true
    · rw [if_pos hp]
      exact iff_of_false (by simp)
        (not_not_intro ((hasPrefixSeq_iff pat (c :: cs)).1 hp).isInfix)
    · rw [if_neg hp, List.infix_cons_iff]
      have hnp : ¬ pat <+: c :: cs := fun h => hp ((hasPrefixSeq_iff pat (c :: cs)).2 h)
      cases hrec : findSep pat cs with
      | none =>
        exact iff_of_true rfl (by push_neg; exact ⟨hnp, ih.1 hrec⟩)
      | some pp =>
        refine iff_of_false (by simp) (not_not_intro (Or.inr ?_))
        by_contra hni
        rw [ih.2 hni] at hrec
        cases hrec

theorem findSep_some_decomp (pat : List Char) :
    ∀ s pre post, findSep pat s = some (pre, post) → s = pre ++ pat ++ post
  | [], pre, post => by simp [findSep]
  | c :: cs, pre, post => by
    rw [findSep]
    by_cases hp : hasPrefixSeq pat (c :: cs) = true
    · rw [if_pos hp]
      intro h
      have hpre : pre = [] ∧ post = (c :: cs).drop pat.length := by
        cases h; exact ⟨rfl, rfl⟩
      obtain ⟨rfl, rfl⟩ := hpre
      simpa using hasPrefixSeq_drop pat (c :: cs) hp
    · rw [if_neg hp]
      cases hrec : findSep pat cs with
      | none => intro h; cases h
      | some pp =>
        intro h
        have hpre : pre = c :: pp.1 ∧ post = pp.2 := by
          cases h; exact ⟨rfl, rfl⟩
        obtain ⟨rfl, rfl⟩ := hpre
        have := findSep_some_decomp pat cs pp.1 pp.2 (by rw [hrec])
        simp [this]

theorem singleton_infix_iff (c : Char) (s : List Char) : [c] <:+: s ↔ c ∈ s := by
  constructor
  · intro h
    exact List.singleton_sublist.1 h.sublist
  · intro h
    obtain ⟨u, v, rfl⟩ := List.append_of_mem h
    exact ⟨u, v, by simp⟩

theorem findSep_single (c : Char) (r : List Char) :
    ∀ p : List Char, c ∉ p → findSep [c] (p ++ c :: r) = some (p, r)
  | [], _ => by
    rw [List.nil_append, findSep]
    simp [hasPrefixSeq]
  | a :: p', h => by
    have hac : a ≠ c := fun hh => h (by simp [hh])
    have hcp : c ∉ p' := fun hh => h (by simp [hh])
    rw [List.cons_append, findSep]
    have hpf : hasPrefixSeq [c] (a :: (p' ++ c :: r)) = false := by
      simp [hasPrefixSeq, Ne.symm hac]
    rw [hpf]
    simp only [Bool.false_eq_true, if_false]
    rw [findSep_single c r p' hcp]

theorem findSep_cc (c : Char) (r : List Char) :
    ∀ p : List Char, ¬ [c, c] <:+: p → p.getLast? ≠ some c →
      findSep [c, c] (p ++ [c, c] ++ r) = some (p, r)
  | [], _, _ => by
    simp only [List.nil_append, List.cons_append]
    rw [findSep]
    simp [hasPrefixSeq]
  | a :: p', h1, h2 => by
    simp only [List.cons_append]
    rw [findSep]
    have hpf : hasPrefixSeq [c, c] (a :: (p' ++ [c, c] ++ r)) = false := by
      rw [Bool.eq_false_iff]
      intro htrue
      have hpfx := (hasPrefixSeq_iff _ _).1 htrue
      rw [List.cons_prefix_cons] at hpfx
      obtain ⟨rfl, hpfx2⟩ := hpfx
      cases p' with
      | nil => exact h2 (by simp)
      | cons b p'' =>
        have hb2 : c = b := by
          simp only [List.cons_append] at hpfx2
          rw [List.cons_prefix_cons] at hpfx2
          exact hpfx2.1
        exact h1 ⟨[], p'', by simp [← hb2]⟩
    rw [hpf]
    simp only [Bool.false_eq_true, if_false]
    have h1' : ¬ [c, c] <:+: p' := fun hh => h1 (List.infix_cons_iff.2 (Or.inr hh))
    have h2' : p'.getLast? ≠ some c := by
      cases p' with
      | nil => simp
      | cons b p'' =>
        rw [List.getLast?_cons_cons] at h2
        exact h2
    rw [findSep_cc c r p' h1' h2']

theorem findSep_length_lt (pat : List Char) (hpat : pat ≠ []) (s pre post : List Char)
    (h : findSep pat s = some (pre, post)) : post.length < s.length := by
  have := findSep_some_decomp pat s pre post h
  subst this
  have : 0 < pat.length := List.length_pos.2 hpat
  simp only [List.length_append]
  omega

theorem jsSplitGo_congr (pat : List Char) (hpat : pat ≠ []) :
    ∀ f g s, s.length < f → s.length < g → jsSplitGo f pat s = jsSplitGo g pat s := by
  intro f
  induction f with
  | zero => intro g s hf; omega
  | succ f ih =>
    intro g s hf hg
    cases g with
    | zero => omega
    | succ g' =>
      cases hfs : findSep pat s with
      | none => rw [jsSplitGo, jsSplitGo, hfs]
      | some pp =>
        obtain ⟨pre, post⟩ := pp
        rw [jsSplitGo, jsSplitGo, hfs]
        have hlt := findSep_length_lt pat hpat s pre post hfs
        show pre :: jsSplitGo f pat post = pre :: jsSplitGo g' pat post
        rw [ih g' post (by omega) (by omega)]

theorem jsSplit_eq_cons (pat : List Char) (hpat : pat ≠ []) (s pre post : List Char)
    (h : findSep pat s = some (pre, post)) : jsSplit pat s = pre :: jsSplit pat post := by
  rw [jsSplit, jsSplitGo, h, jsSplit]
  have hlt := findSep_length_lt pat hpat s pre post h
  show pre :: jsSplitGo s.length pat post = pre :: jsSplitGo (post.length + 1) pat post
  rw [jsSplitGo_congr pat hpat s.length (post.length + 1) post (by omega) (by omega)]

theorem jsSplit_eq_single (pat s : List Char) (h : findSep pat s = none) :
    jsSplit pat s = [s] := by
  rw [jsSplit, jsSplitGo, h]

/-! ## JSON serialization (`JSON.stringify`)

Faithful to the JavaScript builtin on the values in scope: strings are
quoted with the standard escapes (`\"`, `\\`, `\b`, `\t`, `\n`, `\f`,
`\r`, and `\u00XX` for other control characters), arrays and objects are
serialized without whitespace. -/

def lbrace : Char := Char.ofNat 123
def rbrace : Char := Char.ofNat 125

def hexDigitChar (n : Nat) : Char :=
  if n < 10 then Char.ofNat (48 + n) else Char.ofNat (87 + n)

def escChar (c : Char) : List Char :=
  if c = '"' then ['\\', '"']
  else if c = '\\' then ['\\', '\\']
  else if c = Char.ofNat 8 then ['\\', 'b']
  else if c = Char.ofNat 9 then ['\\', 't']
  else if c = Char.ofNat 10 then ['\\', 'n']
  else if c = Char.ofNat 12 then ['\\', 'f']
  else if c = Char.ofNat 13 then ['\\', 'r']
  else if c.toNat < 32 then
    ['\\', 'u', '0', '0', hexDigitChar (c.toNat / 16), hexDigitChar (c.toNat % 16)]
  else [c]

def escBody : List Char → List Char
  | [] => []
  | c :: cs => escChar c ++ escBody cs

/-- `JSON.stringify` of a string value. -/
def quoteStr (s : List Char) : List Char := '"' :: escBody s ++ ['"']

mutual
def jsonStringify : JsonVal → List Char
  | .str s => quoteStr s
  | .numLit s => s
  | .boolean b => if b then chars "true" else chars "false"
  | .null => chars "null"
  | .arr xs => '[' :: stringifyElems xs ++ [']']
  | .obj fs => lbrace :: stringifyMembers fs ++ [rbrace]

def stringifyElems : List JsonVal → List Char
  | [] => []
  | [x] => jsonStringify x
  | x :: y :: rest => jsonStringify x ++ ',' :: stringifyElems (y :: rest)

def stringifyMembers : Obj → List Char
  | [] => []
  | [(k, v)] => quoteStr k ++ ':' :: jsonStringify v
  | (k, v) :: m :: rest => quoteStr k ++ ':' :: jsonStringify v ++ ',' :: stringifyMembers (m :: rest)
end

/-! ## Decimal rendering of array indices (JavaScript `${index}`) -/

def digitChar (n : Nat) : Char := Char.ofNat (48 + n)

def natReprGo : Nat → Nat → List Char
  | 0, _ => []
  | fuel + 1, n =>
    if n < 10 then [digitChar n] else natReprGo fuel (n / 10) ++ [digitChar (n % 10)]

/-- Decimal representation of a natural number, as JavaScript string
interpolation produces for an array index. -/
def natRepr (n : Nat) : List Char := natReprGo (n + 1) n

def digitsToNat (s : List Char) : Nat := s.foldl (fun a c => a * 10 + (c.toNat - 48)) 0

/-- JavaScript array subscripting with a string: `arr[s]` hits an element
exactly when `s` is the canonical decimal representation of an index
(`"0"`, or digits without a leading zero).  Returns that index. -/
def jsArrayIndex? (s : List Char) : Option Nat :=
  if s = ['0'] then some 0
  else if s ≠ [] ∧ s.all (fun c => c.isDigit) = true ∧ s.headD ' ' ≠ '0' then
    some (digitsToNat s)
  else none

/-! ## JSON parsing (`JSON.parse`)

A recursive-descent parser over `List Char`, faithful to the JSON grammar
accepted by the JavaScript builtin (whitespace tolerated around tokens,
strict number syntax, full escape handling; numeric lexemes are kept
uninterpreted).  Lone UTF-16 surrogate escapes are rejected — the only
divergence from JavaScript, which produces lone-surrogate strings that
`List Char` cannot represent; no claim depends on such inputs. -/

def jsonWs (c : Char) : Bool :=
  c = ' ' || c = Char.ofNat 9 || c = Char.ofNat 10 || c = Char.ofNat 13

def skipWs : List Char → List Char
  | [] => []
  | c :: cs => if jsonWs c then skipWs cs else c :: cs

def hexVal? (c : Char) : Option Nat :=
  if 48 ≤ c.toNat ∧ c.toNat ≤ 57 then some (c.toNat - 48)
  else if 97 ≤ c.toNat ∧ c.toNat ≤ 102 then some (c.toNat - 87)
  else if 65 ≤ c.toNat ∧ c.toNat ≤ 70 then some (c.toNat - 55)
  else none

def parseHex4 : List Char → Option (Nat × List Char)
  | a :: b :: c :: d :: rest =>
    match hexVal? a, hexVal? b, hexVal? c, hexVal? d with
    | some x, some y, some z, some w => some (((x * 16 + y) * 16 + z) * 16 + w, rest)
    | _, _, _, _ => none
  | _ => none

def parseStrGo : Nat → List Char → Option (List Char × List Char)
  | 0, _ => none
  | fuel + 1, s =>
    match s with
    | [] => none
    | c :: cs =>
      if c = '"' then some ([], cs)
      else if c = '\\' then
        match cs with
        | [] => none
        | e :: cs2 =>
          if e = '"' ∨ e = '\\' ∨ e = '/' then
            (parseStrGo fuel cs2).map (fun r => (e :: r.1, r.2))
          else if e = 'b' then (parseStrGo fuel cs2).map (fun r => (Char.ofNat 8 :: r.1, r.2))
          else if e = 'f' then (parseStrGo fuel cs2).map (fun r => (Char.ofNat 12 :: r.1, r.2))
          else if e = 'n' then (parseStrGo fuel cs2).map (fun r => (Char.ofNat 10 :: r.1, r.2))
          else if e = 'r' then (parseStrGo fuel cs2).map (fun r => (Char.ofNat 13 :: r.1, r.2))
          else if e = 't' then (parseStrGo fuel cs2).map (fun r => (Char.ofNat 9 :: r.1, r.2))
          else if e = 'u' then
            match parseHex4 cs2 with
            | none => none
            | some (n, cs3) =>
              if n < 55296 ∨ 57343 < n then
                (parseStrGo fuel cs3).map (fun r => (Char.ofNat n :: r.1, r.2))
              else if n ≤ 56319 then
                match cs3 with
                | b1 :: b2 :: cs4 =>
                  if b1 = '\\' ∧ b2 = 'u' then
                    match parseHex4 cs4 with
                    | some (m, cs5) =>
                      if 56320 ≤ m ∧ m ≤ 57343 then
                        (parseStrGo fuel cs5).map
                          (fun r => (Char.ofNat (65536 + (n - 55296) * 1024 + (m - 56320)) :: r.1, r.2))
                      else none
                    | none => none
                  else none
                | _ => none
              else none
          else none
      else if c.toNat < 32 then none
      else (parseStrGo fuel cs).map (fun r => (c :: r.1, r.2))

def spanDigits : List Char → List Char × List Char
  | [] => ([], [])
  | c :: cs =>
    if c.isDigit then
      let r := spanDigits cs
      (c :: r.1, r.2)
    else ([], c :: cs)

def parseIntPart : List Char → Option (List Char × List Char)
  | [] => none
  | c :: cs =>
    if c = '0' then some (['0'], cs)
    else if c.isDigit then
      let r := spanDigits cs
      some (c :: r.1, r.2)
    else none

def parseFrac : List Char → Option (List Char × List Char)
  | [] => some ([], [])
  | c :: cs =>
    if c = '.' then
      match spanDigits cs with
      | ([], _) => none
      | (ds, rest) => some ('.' :: ds, rest)
    else some ([], c :: cs)

def parseExpPart : List Char → Option (List Char × List Char)
  | [] => some ([], [])
  | c :: cs =>
    if c = 'e' ∨ c = 'E' then
      let (sgn, cs2) : List Char × List Char :=
        match cs with
        | d :: ds => if d = '+' ∨ d = '-' then ([d], ds) else ([], d :: ds)
        | [] => ([], [])
      match spanDigits cs2 with
      | ([], _) => none
      | (ds, rest) => some (c :: (sgn ++ ds), rest)
    else some ([], c :: cs)

def parseNum (s : List Char) : Option (List Char × List Char) :=
  let sr : List Char × List Char :=
    match s with
    | c :: cs => if c = '-' then (['-'], cs) else ([], c :: cs)
    | [] => ([], [])
  match parseIntPart sr.2 with
  | none => none
  | some (ip, s2) =>
    match parseFrac s2 with
    | none => none
    | some (fp, s3) =>
      match parseExpPart s3 with
      | none => none
      | some (ep, s4) => some (sr.1 ++ ip ++ fp ++ ep, s4)

mutual
def parseVal : Nat → List Char → Option (JsonVal × List Char)
  | 0, _ => none
  | fuel + 1, s0 =>
    match skipWs s0 with
    | [] => none
    | c :: cs =>
      if c = '"' then
        match parseStrGo (cs.length + 1) cs with
        | some (content, rest) => some (.str content, rest)
        | none => none
      else if c = '[' then
        match skipWs cs with
        | [] => none
        | d :: ds =>
          if d = ']' then some (.arr [], ds)
          else
            match parseElems fuel (d :: ds) with
            | some (vs, rest) => some (.arr vs, rest)
            | none => none
      else if c = lbrace then
        match skipWs cs with
        | [] => none
        | d :: ds =>
          if d = rbrace then some (.obj [], ds)
          else
            match parseMembers fuel (d :: ds) with
            | some (fs, rest) => some (.obj fs, rest)
            | none => none
      else if c = 'n' then
        if hasPrefixSeq (chars "ull") cs then some (.null, cs.drop 3) else none
      else if c = 't' then
        if hasPrefixSeq (chars "rue") cs then some (.boolean true, cs.drop 3) else none
      else if c = 'f' then
        if hasPrefixSeq (chars "alse") cs then some (.boolean false, cs.drop 4) else none
      else if c = '-' ∨ c.isDigit then
        match parseNum (c :: cs) with
        | some (lit, rest) => some (.numLit lit, rest)
        | none => none
      else none

def parseElems : Nat → List Char → Option (List JsonVal × List Char)
  | 0, _ => none
  | fuel + 1, s =>
    match parseVal fuel s with
    | none => none
    | some (v, rest) =>
      match skipWs rest with
      | [] => none
      | c :: cs =>
        if c = ',' then
          match parseElems fuel cs with
          | some (vs, rest2) => some (v :: vs, rest2)
          | none => none
        else if c = ']' then some ([v], cs)
        else none

def parseMembers : Nat → List Char → Option (Obj × List Char)
  | 0, _ => none
  | fuel + 1, s =>
    match skipWs s with
    | [] => none
    | c :: cs =>
      if c = '"' then
        match parseStrGo (cs.length + 1) cs with
        | none => none
        | some (key, rest) =>
          match skipWs rest with
          | [] => none
          | d :: ds =>
            if d = ':' then
              match parseVal fuel ds with
              | none => none
              | some (v, rest2) =>
                match skipWs rest2 with
                | [] => none
                | e :: es =>
                  if e = ',' then
                    match parseMembers fuel es with
                    | some (fs, rest3) => some ((key, v) :: fs, rest3)
                    | none => none
                  else if e = rbrace then some ([(key, v)], es)
                  else none
            else none
      else none
end

/-- `JSON.parse`: parse a complete JSON text (trailing whitespace allowed),
rejecting any input the grammar does not accept. -/
def jsonParse (s : List Char) : Option JsonVal :=
  match parseVal (2 * s.length + 2) s with
  | some (v, rest) => if skipWs rest = [] then some v else none
  | none => none

/-- `JSON.parse(value)` where `value` may be the JavaScript `undefined`
(destructuring past the end of the split array): `undefined` is coerced to
the string `"undefined"`, which is not valid JSON, so parsing fails. -/
def parseValueOpt : Option (List Char) → Option JsonVal
  | none => none
  | some s => jsonParse s

/-! ## Leaf extraction (`resolveMessages` / `resolvePaths` in `translateFile`)

A key whose value is a non-empty string or non-empty array becomes a record
`(path, text)` with path `currentPath ? currentPath + '/' + key : key`; a
non-empty, non-array object is recursed into; everything else is skipped
silently.  JavaScript treats the empty string as falsy, so an empty
accumulated path behaves like an absent one: the key is used bare. -/

def joinKey : Option (List Char) → List Char → List Char
  | none, k => k
  | some p, k => if p.isEmpty then k else p ++ '/' :: k

mutual
def resolvePaths : Obj → Option (List Char) → List (List Char × JsonVal)
  | [], _ => []
  | (k, v) :: rest, cur => resolveEntry k v cur ++ resolvePaths rest cur

def resolveEntry : List Char → JsonVal → Option (List Char) → List (List Char × JsonVal)
  | k, .str s, cur => if s.isEmpty then [] else [(joinKey cur k, .str s)]
  | k, .arr xs, cur => if xs.isEmpty then [] else [(joinKey cur k, .arr xs)]
  | k, .obj fs, cur => if fs.isEmpty then [] else resolvePaths fs (some (joinKey cur k))
  | _, _, _ => []
end

def resolveMessages (data : Obj) : List (List Char × JsonVal) := resolvePaths data none

/-! ## Batch encoding (`messages.map((x, i) => i + "==" + JSON.stringify(x.text)).join("//")`) -/

def encodeToken (i : Nat) (text : JsonVal) : List Char :=
  natRepr i ++ '=' :: '=' :: jsonStringify text

def encodeTokensGo : Nat → List (List Char × JsonVal) → List (List Char)
  | _, [] => []
  | i, (_, t) :: rest => encodeToken i t :: encodeTokensGo (i + 1) rest

def joinSep (sep : List Char) : List (List Char) → List Char
  | [] => []
  | [x] => x
  | x :: y :: rest => x ++ sep ++ joinSep sep (y :: rest)

def encodeBatch (messages : List (List Char × JsonVal)) : List Char :=
  joinSep (chars "//") (encodeTokensGo 0 messages)

/-! ## Document rebuilding -/

def lookupKey : Obj → List Char → Option JsonVal
  | [], _ => none
  | (k, v) :: rest, key => if k = key then some v else lookupKey rest key

def replaceKey : Obj → List Char → JsonVal → Obj
  | [], _, _ => []
  | (k, v) :: rest, key, nv =>
    if k = key then (k, nv) :: rest else (k, v) :: replaceKey rest key nv

/-- JavaScript property assignment on an object in insertion order: an
existing key keeps its position, a new key is appended. -/
def setKey (o : Obj) (key : List Char) (v : JsonVal) : Obj :=
  match lookupKey o key with
  | some _ => replaceKey o key v
  | none => o ++ [(key, v)]

/-- Modelled from the spec: `ObjectManager#set` of the external `object.mn`
library (not part of this repository's sources).  The spec: the rebuilder
"splits [the path] on `/`, and sets that nested location in the output
document to `value`, creating intermediate mapping levels as needed". -/
def omSetSegs : Obj → List (List Char) → JsonVal → Obj
  | o, [], _ => o
  | o, [k], v => setKey o k v
  | o, k :: r :: rs, v =>
    match lookupKey o k with
    | some (.obj sub) => replaceKey o k (.obj (omSetSegs sub (r :: rs) v))
    | some _ => replaceKey o k (.obj (omSetSegs [] (r :: rs) v))
    | none => o ++ [(k, .obj (omSetSegs [] (r :: rs) v))]

def omSet (o : Obj) (path : List Char) (v : JsonVal) : Obj :=
  omSetSegs o (jsSplit ['/'] path) v

/-! ## Batch decoding and rebuild

`text.split("//").map(m => m.split("=="))`, then for each `[index, value]`
pair `objectMessages.set(messages[index].path, JSON.parse(value))`.
Argument evaluation order matters: `messages[index].path` is evaluated
(and can throw `TypeError`) before `JSON.parse(value)` runs. -/

inductive DecErr where
  | typeLookup
  | jsonSyntax
  deriving DecidableEq

def decodeStep (messages : List (List Char × JsonVal)) (acc : Obj) (tok : List Char) :
    Except DecErr Obj :=
  let parts := jsSplit ('=' :: ['=']) tok
  match jsArrayIndex? (parts.headD []) with
  | none => .error .typeLookup
  | some i =>
    match messages[i]? with
    | none => .error .typeLookup
    | some msg =>
      match parseValueOpt parts[1]? with
      | none => .error .jsonSyntax
      | some v => .ok (omSet acc msg.1 v)

def decodeFold (messages : List (List Char × JsonVal)) :
    Obj → List (List Char) → Except DecErr Obj
  | acc, [] => .ok acc
  | acc, t :: ts =>
    match decodeStep messages acc t with
    | .error e => .error e
    | .ok acc2 => decodeFold messages acc2 ts

def decodeRebuild (messages : List (List Char × JsonVal)) (translated : List Char) :
    Except DecErr Obj :=
  decodeFold messages [] (jsSplit (chars "//") translated)

/-! ## The file-translation pipeline (`translateFile`, `.json` branch) -/

/-- `(path.split('/').at(-1))?.split('.')[0] + '-translated.json'` -/
def pathTranslatedJson (path : List Char) : List Char :=
  (jsSplit ['.'] ((jsSplit ['/'] path).getLastD [])).headD [] ++ chars "-translated.json"

/-- `(path.split('/').at(-1))?.split('.')[0] + '-translated.txt'` -/
def pathTranslatedTxt (path : List Char) : List Char :=
  (jsSplit ['.'] ((jsSplit ['/'] path).getLastD [])).headD [] ++ chars "-translated.txt"

/-- The `.json` branch of `translateFile` after the backend responded with
`translated`: decode-and-rebuild, then (only on success) write the output
file.  The successful result carries the write that `writeFile` performs. -/
def translateFileJson (path : List Char) (data : Obj) (translated : List Char) :
    Except DecErr (List Char × Obj) :=
  match decodeRebuild (resolveMessages data) translated with
  | .ok rebuilt => .ok (pathTranslatedJson path, rebuilt)
  | .error e => .error e

/-- The files written by a run of the `.json` branch. -/
def writesOf : Except DecErr (List Char × Obj) → List (List Char × Obj)
  | .ok w => [w]
  | .error _ => []

/-- The whole structured pipeline against the identity backend. -/
def identityRoundTrip (data : Obj) : Except DecErr Obj :=
  decodeRebuild (resolveMessages data) (encodeBatch (resolveMessages data))

/-! ## CLI surface: stored state, language validation, target resolution -/

/-- The persisted local store: `defaultLanguage` plus the language catalog
(parallel long-name/short-name lists). -/
structure Db where
  defaultLanguage : Option (List Char)
  longNames : List (List Char)
  shortNames : List (List Char)

/-- `this.db.set('defaultLanguage', language)` -/
def dbSetDefaultLanguage (db : Db) (lang : List Char) : Db :=
  { db with defaultLanguage := some lang }

/-- `languages()`: one display line per catalog entry. -/
def languagesList (db : Db) : List (List Char) :=
  (db.longNames.zip db.shortNames).map
    (fun p => chars "  " ++ p.1 ++ chars " (" ++ p.2 ++ [')'])

/-- `(options.to ?? this.db.get('defaultLanguage')) ?? 'en'` -/
def resolveTargetLanguage (optTo : Option (List Char)) (stored : Option (List Char)) :
    List Char :=
  match optTo with
  | some t => t
  | none =>
    match stored with
    | some d => d
    | none => chars "en"

inductive RunOutput where
  | printedLanguages (lines : List (List Char))
  | argError
  | backendCall (text : List Char) (target : List Char)
  deriving DecidableEq

/-- The default action `run(message, options)`. -/
def runAction (db : Db) (message : List (List Char)) (optTo : Option (List Char))
    (optLanguages : Bool) : Db × RunOutput :=
  if optLanguages then (db, .printedLanguages (languagesList db))
  else if message.isEmpty && optTo.isNone then (db, .argError)
  else if message.isEmpty && optTo.isSome then (db, .argError)
  else
    (db, .backendCall (joinSep [' '] message) (resolveTargetLanguage optTo db.defaultLanguage))

/-- `verifyString`: the `--to` argument parser; rejects a value that is in
neither the catalog's long names nor its short names. -/
def verifyString (db : Db) (value : List Char) : Except Unit (List Char) :=
  if db.longNames.contains value || db.shortNames.contains value then .ok value
  else .error ()

def backendCallsOf : RunOutput → List (List Char × List Char)
  | .backendCall text target => [(text, target)]
  | _ => []

/-- One phrase-translation invocation: commander runs the `--to` argument
parser (`verifyString`) while parsing, before the action; a parse error
aborts before the action and hence before any backend call.  The first
component records every backend call the invocation performs. -/
def cliInvoke (db : Db) (message : List (List Char)) (rawTo : Option (List Char))
    (optLanguages : Bool) : List (List Char × List Char) × Except Unit RunOutput :=
  match rawTo with
  | some v =>
    match verifyString db v with
    | .error e => ([], .error e)
    | .ok v2 =>
      let out := runAction db message (some v2) optLanguages
      (backendCallsOf out.2, .ok out.2)
  | none =>
    let out := runAction db message none optLanguages
    (backendCallsOf out.2, .ok out.2)

/-- The `to` subcommand: persists the chosen default language. -/
def toCommand (db : Db) (language : List Char) : Db × List Char :=
  (dbSetDefaultLanguage db language, language)

/-- The `file` command's interaction with the store (`.json` branch): it
reads `defaultLanguage` for the backend call and never writes it. -/
def fileCommandJson (db : Db) (path : List Char) (data : Obj) (translated : List Char) :
    Db × Except DecErr (List Char × Obj) :=
  (db, translateFileJson path data translated)

/-! ## Well-formedness predicates on documents -/

def hasKey : Obj → List Char → Bool
  | [], _ => false
  | (k, _) :: rest, key => k = key || hasKey rest key

mutual
/-- The claim's hypothesis on documents: every leaf is a non-empty string
or a non-empty array of strings; nested objects are non-empty; keys are
not repeated within an object. -/
def goodVal : JsonVal → Bool
  | .str s => !s.isEmpty
  | .arr xs => !xs.isEmpty && arrAllStr xs
  | .obj fs => !fs.isEmpty && goodFields fs
  | _ => false

def arrAllStr : List JsonVal → Bool
  | [] => true
  | .str _ :: rest => arrAllStr rest
  | _ :: _ => false

def goodFields : Obj → Bool
  | [] => true
  | (k, v) :: rest => goodVal v && !hasKey rest k && goodFields rest
end

def goodDoc (data : Obj) : Bool := !data.isEmpty && goodFields data

mutual
/-- No key anywhere in the document contains the path separator `/`. -/
def slashFreeVal : JsonVal → Bool
  | .obj fs => slashFreeFields fs
  | _ => true

def slashFreeFields : Obj → Bool
  | [] => true
  | (k, v) :: rest => !k.contains '/' && slashFreeVal v && slashFreeFields rest
end

def cleanChars (s : List Char) : Bool :=
  !containsSeq (chars "//") s && !containsSeq (chars "==") s

mutual
/-- No leaf text (string leaf or array element) contains the batch
separator `//` or the record separator `==`. -/
def cleanTextsVal : JsonVal → Bool
  | .str s => cleanChars s
  | .arr xs => cleanArr xs
  | .obj fs => cleanTextsFields fs
  | _ => true

def cleanArr : List JsonVal → Bool
  | [] => true
  | .str s :: rest => cleanChars s && cleanArr rest
  | _ :: _ => false

def cleanTextsFields : Obj → Bool
  | [] => true
  | (_, v) :: rest => cleanTextsVal v && cleanTextsFields rest
end

mutual
/-- No key anywhere in the document is the empty string.  The program's
path accumulator check `currentPath ? currentPath + '/' + key : key`
treats an empty accumulated path as absent, so a document with an
empty-string key can record a bare sub-key instead of a joined chain. -/
def neKeysVal : JsonVal → Bool
  | .obj fs => neKeysFields fs
  | _ => true

def neKeysFields : Obj → Bool
  | [] => true
  | (k, v) :: rest => !k.isEmpty && neKeysVal v && neKeysFields rest
end

deriving instance DecidableEq for Except

/-! ## Facts about decimal index rendering -/

theorem natReprGo_congr : ∀ f g n : Nat, n < f → n < g → natReprGo f n = natReprGo g n := by
  intro f
  induction f with
  | zero => intro g n h; omega
  | succ f ih =>
    intro g n hf hg
    cases g with
    | zero => omega
    | succ g' =>
      rw [natReprGo, natReprGo]
      by_cases hn : n < 10
      · rw [if_pos hn, if_pos hn]
      · rw [if_neg hn, if_neg hn]
        have hdiv : n / 10 < n := Nat.div_lt_self (by omega) (by omega)
        rw [ih g' (n / 10) (by omega) (by omega)]

theorem natRepr_small (n : Nat) (h : n < 10) : natRepr n = [digitChar n] := by
  rw [natRepr, natReprGo, if_pos h]

theorem natRepr_big (n : Nat) (h : 10 ≤ n) :
    natRepr n = natRepr (n / 10) ++ [digitChar (n % 10)] := by
  rw [natRepr, natReprGo, if_neg (by omega)]
  have hdiv : n / 10 < n := Nat.div_lt_self (by omega) (by omega)
  rw [natReprGo_congr n (n / 10 + 1) (n / 10) (by omega) (by omega)]
  rfl

theorem digitChar_isDigit (n : Nat) (h : n < 10) : (digitChar n).isDigit = true := by
  interval_cases n <;> decide

theorem digitChar_toNat (n : Nat) (h : n < 10) : (digitChar n).toNat - 48 = n := by
  interval_cases n <;> decide

theorem digitChar_eq_zero_iff (n : Nat) (h : n < 10) : digitChar n = '0' ↔ n = 0 := by
  interval_cases n <;> simp <;> decide

theorem natRepr_ne_nil (n : Nat) : natRepr n ≠ [] := by
  by_cases h : n < 10
  · rw [natRepr_small n h]; simp
  · rw [natRepr_big n (by omega)]; simp

theorem natRepr_all_digits (n : Nat) : ∀ c ∈ natRepr n, c.isDigit = true := by
  induction n using Nat.strong_induction_on with
  | _ n ih =>
    by_cases h : n < 10
    · rw [natRepr_small n h]
      intro c hc
      rw [List.mem_singleton] at hc
      subst hc
      exact digitChar_isDigit n h
    · rw [natRepr_big n (by omega)]
      intro c hc
      rw [List.mem_append] at hc
      rcases hc with hc | hc
      · exact ih (n / 10) (Nat.div_lt_self (by omega) (by omega)) c hc
      · rw [List.mem_singleton] at hc
        subst hc
        exact digitChar_isDigit (n % 10) (Nat.mod_lt n (by omega))

theorem natRepr_head_ne_zero (n : Nat) (h : 0 < n) : (natRepr n).headD ' ' ≠ '0' := by
  induction n using Nat.strong_induction_on with
  | _ n ih =>
    by_cases hn : n < 10
    · rw [natRepr_small n hn]
      show digitChar n ≠ '0'
      intro hz
      exact absurd ((digitChar_eq_zero_iff n hn).1 hz) (by omega)
    · rw [natRepr_big n (by omega)]
      have h10 : 0 < n / 10 := Nat.div_pos (by omega) (by omega)
      have := ih (n / 10) (Nat.div_lt_self (by omega) (by omega)) h10
      cases hrep : natRepr (n / 10) with
      | nil => exact absurd hrep (natRepr_ne_nil (n / 10))
      | cons a l =>
        rw [hrep] at this
        simpa using this

theorem digitsToNat_append (xs : List Char) (d : Char) :
    digitsToNat (xs ++ [d]) = 10 * digitsToNat xs + (d.toNat - 48) := by
  rw [digitsToNat, digitsToNat, List.foldl_append]
  simp [Nat.mul_comm]

theorem digitsToNat_natRepr (n : Nat) : digitsToNat (natRepr n) = n := by
  induction n using Nat.strong_induction_on with
  | _ n ih =>
    by_cases h : n < 10
    · rw [natRepr_small n h]
      show digitsToNat ([] ++ [digitChar n]) = n
      rw [digitsToNat_append, digitChar_toNat n h]
      simp [digitsToNat]
    · rw [natRepr_big n (by omega), digitsToNat_append,
        ih (n / 10) (Nat.div_lt_self (by omega) (by omega)),
        digitChar_toNat (n % 10) (Nat.mod_lt n (by omega))]
      omega

theorem jsArrayIndex?_natRepr (n : Nat) : jsArrayIndex? (natRepr n) = some n := by
  rcases Nat.eq_zero_or_pos n with rfl | hpos
  · rw [jsArrayIndex?, if_pos]
    rw [natRepr_small 0 (by omega)]
    rfl
  · rw [jsArrayIndex?]
    have hne : natRepr n ≠ ['0'] := by
      intro hh
      have := natRepr_head_ne_zero n hpos
      rw [hh] at this
      simp [List.headD] at this
    rw [if_neg hne, if_pos ⟨natRepr_ne_nil n, by
        rw [List.all_eq_true]
        intro c hc
        exact natRepr_all_digits n c hc, natRepr_head_ne_zero n hpos⟩,
      digitsToNat_natRepr]

/-! ## Separator cleanliness of the JSON encoding

The two delimiter characters `/` and `=` pass through `JSON.stringify`'s
string escaping untouched, and no escape sequence ever produces them; so a
doubled separator occurs in an encoded token exactly when it occurs in the
raw leaf text. -/

theorem containsSeq_false_iff (pat s : List Char) (hpat : pat ≠ []) :
    containsSeq pat s = false ↔ ¬ pat <:+: s := by
  rw [containsSeq, ← findSep_none_iff pat hpat s]
  cases findSep pat s <;> simp

theorem hexDigitChar_not_sep (m : Nat) (h : m < 16) :
    hexDigitChar m ≠ '/' ∧ hexDigitChar m ≠ '=' := by
  interval_cases m <;> exact ⟨by decide, by decide⟩

theorem escChar_sep_eq (c : Char) (hsep : c = '/' ∨ c = '=') : escChar c = [c] := by
  rcases hsep with rfl | rfl <;> decide

theorem escChar_ne_nil (a : Char) : escChar a ≠ [] := by
  rw [escChar]
  repeat' split
  all_goals simp

theorem escChar_mem_sep (c : Char) (hsep : c = '/' ∨ c = '=') (a : Char)
    (h : c ∈ escChar a) : a = c := by
  rw [escChar] at h
  by_cases h1 : a = '"'
  · rw [if_pos h1] at h
    rcases hsep with rfl | rfl <;> simp_all
  rw [if_neg h1] at h
  by_cases h2 : a = '\\'
  · rw [if_pos h2] at h
    rcases hsep with rfl | rfl <;> simp_all
  rw [if_neg h2] at h
  by_cases h3 : a = Char.ofNat 8
  · rw [if_pos h3] at h
    rcases hsep with rfl | rfl <;> simp_all
  rw [if_neg h3] at h
  by_cases h4 : a = Char.ofNat 9
  · rw [if_pos h4] at h
    rcases hsep with rfl | rfl <;> simp_all
  rw [if_neg h4] at h
  by_cases h5 : a = Char.ofNat 10
  · rw [if_pos h5] at h
    rcases hsep with rfl | rfl <;> simp_all
  rw [if_neg h5] at h
  by_cases h6 : a = Char.ofNat 12
  · rw [if_pos h6] at h
    rcases hsep with rfl | rfl <;> simp_all
  rw [if_neg h6] at h
  by_cases h7 : a = Char.ofNat 13
  · rw [if_pos h7] at h
    rcases hsep with rfl | rfl <;> simp_all
  rw [if_neg h7] at h
  by_cases h8 : a.toNat < 32
  · rw [if_pos h8] at h
    have hd : a.toNat / 16 < 16 := by omega
    have hm : a.toNat % 16 < 16 := by omega
    have := hexDigitChar_not_sep (a.toNat / 16) hd
    have := hexDigitChar_not_sep (a.toNat % 16) hm
    rcases hsep with rfl | rfl <;> simp_all <;> tauto
  · rw [if_neg h8] at h
    rw [List.mem_singleton] at h
    exact h.symm

theorem escChar_getLast_sep (c : Char) (hsep : c = '/' ∨ c = '=') (a : Char)
    (h : (escChar a).getLast? = some c) : a = c := by
  apply escChar_mem_sep c hsep a
  exact List.mem_of_getLast?_eq_some h

theorem escChar_head_sep (c : Char) (hsep : c = '/' ∨ c = '=') (a : Char)
    (h : (escChar a).head? = some c) : a = c := by
  apply escChar_mem_sep c hsep a
  exact List.mem_of_mem_head? h

theorem cc_infix_append (c : Char) :
    ∀ x y : List Char, [c, c] <:+: x ++ y →
      [c, c] <:+: x ∨ [c, c] <:+: y ∨ (x.getLast? = some c ∧ y.head? = some c)
  | [], y, h => by
    right; left
    simpa using h
  | a :: x', y, h => by
    rw [List.cons_append, List.infix_cons_iff] at h
    rcases h with h | h
    · rw [List.cons_prefix_cons] at h
      obtain ⟨rfl, h2⟩ := h
      cases x' with
      | nil =>
        right; right
        refine ⟨by simp, ?_⟩
        obtain ⟨t, ht⟩ := h2
        rw [List.nil_append] at ht
        rw [← ht]
        rfl
      | cons b x'' =>
        left
        obtain ⟨t, ht⟩ := h2
        rw [List.cons_append] at ht
        have hb : c = b := by
          have := congrArg List.head? ht
          simpa using this
        exact ((List.cons_prefix_cons).2 ⟨rfl, (List.cons_prefix_cons).2
          ⟨hb, List.nil_prefix⟩⟩).isInfix
    · rcases cc_infix_append c x' y h with h1 | h1 | h1
      · exact Or.inl (List.infix_cons_iff.2 (Or.inr h1))
      · exact Or.inr (Or.inl h1)
      · obtain ⟨hL, hH⟩ := h1
        cases x' with
        | nil => simp at hL
        | cons b x'' =>
          right; right
          rw [List.getLast?_cons_cons]
          exact ⟨hL, hH⟩

theorem no_cc_append (c : Char) (x y : List Char) (hx : ¬ [c, c] <:+: x)
    (hy : ¬ [c, c] <:+: y) (hb : ¬ (x.getLast? = some c ∧ y.head? = some c)) :
    ¬ [c, c] <:+: x ++ y := by
  intro h
  rcases cc_infix_append c x y h with h1 | h1 | h1
  · exact hx h1
  · exact hy h1
  · exact hb h1

theorem escBody_head_sep (c : Char) (hsep : c = '/' ∨ c = '=') :
    ∀ s : List Char, (escBody s).head? = some c → s.head? = some c
  | [] => by simp [escBody]
  | a :: s' => by
    rw [escBody, List.head?_append]
    cases hesc : escChar a with
    | nil => exact absurd hesc (escChar_ne_nil a)
    | cons e es =>
      intro h
      simp only [List.head?_cons, Option.or_some] at h
      cases h
      have ha : a = c := escChar_mem_sep c hsep a (by rw [hesc]; exact List.mem_cons_self _ _)
      rw [ha]
      rfl

theorem escBody_getLast_sep (c : Char) (hsep : c = '/' ∨ c = '=') :
    ∀ s : List Char, (escBody s).getLast? = some c → s.getLast? = some c
  | [] => by simp [escBody]
  | a :: s' => by
    rw [escBody, List.getLast?_append]
    cases s' with
    | nil =>
      intro h
      rw [show escBody [] = [] from rfl] at h
      simp only [List.getLast?_nil, Option.none_or] at h
      have := escChar_getLast_sep c hsep a h
      rw [this]
      rfl
    | cons b s'' =>
      intro h
      have hne : escBody (b :: s'') ≠ [] := by
        rw [escBody]
        intro hh
        exact escChar_ne_nil b (List.append_eq_nil.1 hh).1
      cases hl : (escBody (b :: s'')).getLast? with
      | none => exact absurd (List.getLast?_eq_none_iff.1 hl) hne
      | some d =>
        rw [hl] at h
        simp only [Option.or_some, Option.or] at h
        cases h
        rw [List.getLast?_cons_cons]
        exact escBody_getLast_sep c hsep (b :: s'') hl

theorem escBody_no_cc (c : Char) (hsep : c = '/' ∨ c = '=') :
    ∀ s : List Char, ¬ [c, c] <:+: s → ¬ [c, c] <:+: escBody s
  | [] => by simp [escBody]
  | a :: s' => by
    intro h hinf
    rw [escBody] at hinf
    rcases cc_infix_append c (escChar a) (escBody s') hinf with h1 | h1 | h1
    · have hc : c ∈ escChar a := h1.sublist.subset (by simp)
      have ha := escChar_mem_sep c hsep a hc
      rw [ha, escChar_sep_eq c hsep] at h1
      have := h1.sublist.length_le
      simp at this
    · exact escBody_no_cc c hsep s'
        (fun hh => h (List.infix_cons_iff.2 (Or.inr hh))) h1
    · obtain ⟨hL, hH⟩ := h1
      have ha := escChar_getLast_sep c hsep a hL
      have hs' := escBody_head_sep c hsep s' hH
      obtain ⟨t, ht⟩ := List.head?_eq_some_iff.1 hs'
      apply h
      rw [ha, ht]
      exact ((List.cons_prefix_cons).2 ⟨rfl, (List.cons_prefix_cons).2
        ⟨rfl, List.nil_prefix⟩⟩).isInfix

theorem sep_ne_quote (c : Char) (hsep : c = '/' ∨ c = '=') : c ≠ '"' := by
  rcases hsep with rfl | rfl <;> decide

theorem quoteStr_no_cc (c : Char) (hsep : c = '/' ∨ c = '=') (s : List Char)
    (h : ¬ [c, c] <:+: s) : ¬ [c, c] <:+: quoteStr s := by
  rw [quoteStr, show ('"' :: escBody s ++ ['"'] : List Char)
    = ('"' :: escBody s) ++ ['"'] from rfl,
    show ('"' :: escBody s : List Char) = ['"'] ++ escBody s from rfl]
  apply no_cc_append
  · apply no_cc_append
    · intro hh
      have := hh.sublist.length_le
      simp at this
    · exact escBody_no_cc c hsep s h
    · intro hh
      exact sep_ne_quote c hsep (by simpa using hh.1.symm)
  · intro hh
    have := hh.sublist.length_le
    simp at this
  · intro hh
    exact sep_ne_quote c hsep (by simpa using hh.2.symm)

theorem quoteStr_ne_nil (s : List Char) : quoteStr s ≠ [] := by
  rw [quoteStr]
  simp

theorem quoteStr_head (s : List Char) : (quoteStr s).head? = some '"' := rfl

theorem quoteStr_getLast (s : List Char) : (quoteStr s).getLast? = some '"' := by
  rw [quoteStr, show ('"' :: escBody s ++ ['"'] : List Char)
    = ('"' :: escBody s) ++ ['"'] from rfl]
  exact List.getLast?_concat _

def encTextOk : JsonVal → Bool
  | .str s => cleanChars s
  | .arr xs => cleanArr xs
  | _ => false

theorem cleanChars_no_ss (s : List Char) (h : cleanChars s = true) :
    ¬ ['/', '/'] <:+: s := by
  rw [cleanChars, Bool.and_eq_true] at h
  simp only [Bool.not_eq_true'] at h
  exact (containsSeq_false_iff (chars "//") s (by decide)).1 h.1

theorem cleanChars_no_ee (s : List Char) (h : cleanChars s = true) :
    ¬ ['=', '='] <:+: s := by
  rw [cleanChars, Bool.and_eq_true] at h
  simp only [Bool.not_eq_true'] at h
  exact (containsSeq_false_iff (chars "==") s (by decide)).1 h.2

theorem cleanChars_no_cc (c : Char) (hsep : c = '/' ∨ c = '=') (s : List Char)
    (h : cleanChars s = true) : ¬ [c, c] <:+: s := by
  rcases hsep with rfl | rfl
  · exact cleanChars_no_ss s h
  · exact cleanChars_no_ee s h

theorem no_cc_of_not_mem (c : Char) (s : List Char) (h : c ∉ s) : ¬ [c, c] <:+: s :=
  fun hinf => h (hinf.sublist.subset (by simp))

theorem getLast_ne_of_not_mem (c : Char) (s : List Char) (h : c ∉ s) :
    s.getLast? ≠ some c :=
  fun hl => h (List.mem_of_getLast?_eq_some hl)

theorem sep_not_mem_natRepr (c : Char) (hsep : c = '/' ∨ c = '=') (n : Nat) :
    c ∉ natRepr n := by
  intro hmem
  have := natRepr_all_digits n c hmem
  rcases hsep with rfl | rfl <;> simp at this

theorem stringifyElems_no_cc (c : Char) (hsep : c = '/' ∨ c = '=') :
    ∀ xs, cleanArr xs = true → ¬ [c, c] <:+: stringifyElems xs
  | [] => by
    intro _ h
    have := h.sublist.length_le
    simp [stringifyElems] at this
  | [x] => by
    intro h
    cases x <;> simp [cleanArr] at h
    case str s =>
      show ¬ [c, c] <:+: jsonStringify (.str s)
      rw [jsonStringify]
      exact quoteStr_no_cc c hsep s (cleanChars_no_cc c hsep s h)
  | x :: y :: rest => by
    intro h
    cases x <;> simp [cleanArr] at h
    case str s =>
      obtain ⟨h1, h2⟩ := h
      rw [stringifyElems, jsonStringify]
      rw [show (quoteStr s ++ ',' :: stringifyElems (y :: rest) : List Char)
        = quoteStr s ++ ([','] ++ stringifyElems (y :: rest)) from rfl]
      apply no_cc_append
      · exact quoteStr_no_cc c hsep s (cleanChars_no_cc c hsep s h1)
      · apply no_cc_append
        · intro hh
          have := hh.sublist.length_le
          simp at this
        · exact stringifyElems_no_cc c hsep (y :: rest) h2
        · intro hh
          have : c = ',' := by simpa using hh.1.symm
          rcases hsep with rfl | rfl <;> cases this
      · intro hh
        have : c = '"' := by
          have := hh.1
          rw [quoteStr_getLast] at this
          simpa using this.symm
        exact sep_ne_quote c hsep this

theorem stringify_no_cc (c : Char) (hsep : c = '/' ∨ c = '=') (v : JsonVal)
    (hv : encTextOk v = true) : ¬ [c, c] <:+: jsonStringify v := by
  cases v <;> simp [encTextOk] at hv
  case str s =>
    rw [jsonStringify]
    exact quoteStr_no_cc c hsep s (cleanChars_no_cc c hsep s hv)
  case arr xs =>
    rw [jsonStringify]
    rw [show ('[' :: stringifyElems xs ++ [']'] : List Char)
      = ['['] ++ (stringifyElems xs ++ [']']) from rfl]
    apply no_cc_append
    · intro hh
      have := hh.sublist.length_le
      simp at this
    · apply no_cc_append
      · exact stringifyElems_no_cc c hsep xs hv
      · intro hh
        have := hh.sublist.length_le
        simp at this
      · intro hh
        have : c = ']' := by simpa using hh.2.symm
        rcases hsep with rfl | rfl <;> cases this
    · intro hh
      have : c = '[' := by simpa using hh.1.symm
      rcases hsep with rfl | rfl <;> cases this

theorem stringify_ne_nil (v : JsonVal) (hv : encTextOk v = true) :
    jsonStringify v ≠ [] := by
  cases v <;> simp [encTextOk] at hv
  case str s => rw [jsonStringify]; exact quoteStr_ne_nil s
  case arr xs => rw [jsonStringify]; simp

theorem stringify_getLast_ne_sep (c : Char) (hsep : c = '/' ∨ c = '=') (v : JsonVal)
    (hv : encTextOk v = true) : (jsonStringify v).getLast? ≠ some c := by
  cases v <;> simp [encTextOk] at hv
  case str s =>
    rw [jsonStringify, quoteStr_getLast]
    intro hh
    exact sep_ne_quote c hsep (by simpa using hh.symm)
  case arr xs =>
    rw [jsonStringify, show ('[' :: stringifyElems xs ++ [']'] : List Char)
      = ('[' :: stringifyElems xs) ++ [']'] from rfl, List.getLast?_concat]
    intro hh
    have : c = ']' := by simpa using hh.symm
    rcases hsep with rfl | rfl <;> cases this

theorem encodeToken_eq (i : Nat) (v : JsonVal) :
    encodeToken i v = natRepr i ++ ['=', '='] ++ jsonStringify v := by
  rw [encodeToken]
  simp

theorem encodeToken_no_ss (i : Nat) (v : JsonVal) (hv : encTextOk v = true) :
    ¬ ['/', '/'] <:+: encodeToken i v := by
  rw [encodeToken_eq]
  apply no_cc_append
  · apply no_cc_append
    · exact no_cc_of_not_mem _ _ (sep_not_mem_natRepr '/' (Or.inl rfl) i)
    · intro hh
      have : '/' ∈ (['=', '='] : List Char) := hh.sublist.subset (by simp)
      simp at this
    · intro hh
      have : '/' = '=' := by simpa using hh.2.symm
      cases this
  · exact stringify_no_cc '/' (Or.inl rfl) v hv
  · intro hh
    have h1 := hh.1
    rw [List.getLast?_append] at h1
    simp at h1

theorem encodeToken_getLast_ne_sep (c : Char) (hsep : c = '/' ∨ c = '=') (i : Nat)
    (v : JsonVal) (hv : encTextOk v = true) :
    (encodeToken i v).getLast? ≠ some c := by
  rw [encodeToken_eq, List.getLast?_append]
  cases hl : (jsonStringify v).getLast? with
  | none => exact absurd (List.getLast?_eq_none_iff.1 hl) (stringify_ne_nil v hv)
  | some d =>
    have := stringify_getLast_ne_sep c hsep v hv
    rw [hl] at this
    simpa using this

theorem findSep_encodeToken (i : Nat) (v : JsonVal) :
    findSep ['=', '='] (encodeToken i v) = some (natRepr i, jsonStringify v) := by
  rw [encodeToken_eq]
  exact findSep_cc '=' (jsonStringify v) (natRepr i)
    (no_cc_of_not_mem _ _ (sep_not_mem_natRepr '=' (Or.inr rfl) i))
    (getLast_ne_of_not_mem _ _ (sep_not_mem_natRepr '=' (Or.inr rfl) i))

theorem jsSplit_encodeToken (i : Nat) (v : JsonVal) (hv : encTextOk v = true) :
    jsSplit ['=', '='] (encodeToken i v) = [natRepr i, jsonStringify v] := by
  rw [jsSplit_eq_cons ['=', '='] (by simp) _ _ _ (findSep_encodeToken i v),
    jsSplit_eq_single ['=', '='] _
      ((findSep_none_iff ['=', '='] (by simp) _).2 (stringify_no_cc '=' (Or.inr rfl) v hv))]

/-! ## `JSON.parse ∘ JSON.stringify` on the leaf values in scope -/

theorem hexVal?_hexDigitChar (m : Nat) (h : m < 16) : hexVal? (hexDigitChar m) = some m := by
  interval_cases m <;> decide

theorem parseHex4_esc (t : Nat) (ht : t < 32) (X : List Char) :
    parseHex4 ('0' :: '0' :: hexDigitChar (t / 16) :: hexDigitChar (t % 16) :: X) =
      some (t, X) := by
  rw [parseHex4, show hexVal? '0' = some 0 from by decide,
    hexVal?_hexDigitChar (t / 16) (by omega), hexVal?_hexDigitChar (t % 16) (by omega)]
  show some (((0 * 16 + 0) * 16 + t / 16) * 16 + t % 16, X) = some (t, X)
  have harith : ((0 * 16 + 0) * 16 + t / 16) * 16 + t % 16 = t := by omega
  rw [harith]

theorem parseStrGo_escBody : ∀ (s rest : List Char) (fuel : Nat),
    (escBody s).length < fuel →
    parseStrGo fuel (escBody s ++ '"' :: rest) = some (s, rest)
  | [], rest, fuel, h => by
    cases fuel with
    | zero => exact absurd h (Nat.not_lt_zero _)
    | succ f =>
      rw [show escBody [] = [] from rfl, List.nil_append]
      simp [parseStrGo]
  | a :: s', rest, fuel, h => by
    cases fuel with
    | zero => exact absurd h (Nat.not_lt_zero _)
    | succ f =>
      rw [escBody] at h ⊢
      have h1p : 1 ≤ (escChar a).length :=
        List.length_pos.2 (escChar_ne_nil a)
      rw [List.length_append] at h
      have hIH := parseStrGo_escBody s' rest f (by omega)
      by_cases h1 : a = '"'
      · subst h1
        rw [show escChar '"' = ['\\', '"'] from by decide]
        simp only [List.cons_append, List.nil_append]
        rw [parseStrGo]
        simp [hIH]
      rw [escChar, if_neg h1]
      by_cases h2 : a = '\\'
      · subst h2
        rw [if_pos rfl]
        simp only [List.cons_append, List.nil_append]
        rw [parseStrGo]
        simp [hIH]
      rw [if_neg h2]
      by_cases h3 : a = Char.ofNat 8
      · subst h3
        rw [if_pos rfl]
        simp only [List.cons_append, List.nil_append]
        rw [parseStrGo]
        simp [hIH]
      rw [if_neg h3]
      by_cases h4 : a = Char.ofNat 9
      · subst h4
        rw [if_pos rfl]
        simp only [List.cons_append, List.nil_append]
        rw [parseStrGo]
        simp [hIH]
      rw [if_neg h4]
      by_cases h5 : a = Char.ofNat 10
      · subst h5
        rw [if_pos rfl]
        simp only [List.cons_append, List.nil_append]
        rw [parseStrGo]
        simp [hIH]
      rw [if_neg h5]
      by_cases h6 : a = Char.ofNat 12
      · subst h6
        rw [if_pos rfl]
        simp only [List.cons_append, List.nil_append]
        rw [parseStrGo]
        simp [hIH]
      rw [if_neg h6]
      by_cases h7 : a = Char.ofNat 13
      · subst h7
        rw [if_pos rfl]
        simp only [List.cons_append, List.nil_append]
        rw [parseStrGo]
        simp [hIH]
      rw [if_neg h7]
      by_cases h8 : a.toNat < 32
      · rw [if_pos h8]
        simp only [List.cons_append, List.nil_append]
        rw [parseStrGo]
        simp [parseHex4_esc a.toNat h8, hIH, show a.toNat < 55296 by omega]
      · rw [if_neg h8]
        simp only [List.cons_append, List.nil_append]
        simp [parseStrGo, h1, h2, h8, hIH]

theorem skipWs_cons_of_not_ws (c : Char) (cs : List Char) (h : jsonWs c = false) :
    skipWs (c :: cs) = c :: cs := by
  rw [skipWs, h]
  simp

theorem parseVal_quoteStr (s rest : List Char) :
    ∀ fuel : Nat, 0 < fuel → parseVal fuel (quoteStr s ++ rest) = some (.str s, rest) := by
  intro fuel hf
  cases fuel with
  | zero => omega
  | succ f =>
    rw [quoteStr, parseVal]
    simp only [List.cons_append, List.append_assoc]
    rw [skipWs_cons_of_not_ws '"' _ (by decide)]
    have hps := parseStrGo_escBody s rest ((escBody s).length + (rest.length + 1) + 1)
      (by omega)
    simp [hps]

theorem cleanArr_arrAllStr : ∀ xs : List JsonVal, cleanArr xs = true → arrAllStr xs = true
  | [] => by intro h; rfl
  | x :: rest => by
    intro h
    cases x <;> simp [cleanArr] at h
    case str s =>
      rw [arrAllStr]
      exact cleanArr_arrAllStr rest h.2

theorem parseElems_stringify : ∀ (xs : List JsonVal) (rest : List Char) (fuel : Nat),
    arrAllStr xs = true → xs ≠ [] → xs.length < fuel →
    parseElems fuel (stringifyElems xs ++ ']' :: rest) = some (xs, rest)
  | [], _, _, _, hne, _ => absurd rfl hne
  | [x], rest, fuel, hall, hne1, hf => by
    cases fuel with
    | zero => omega
    | succ f =>
      cases x <;> simp [arrAllStr] at hall
      case str s =>
        have hf1 : 0 < f := by
          simp only [List.length_cons, List.length_nil] at hf
          omega
        rw [show stringifyElems [JsonVal.str s] = quoteStr s from rfl, parseElems,
          parseVal_quoteStr s (']' :: rest) f hf1]
        simp [skipWs_cons_of_not_ws ']' rest (by decide)]
  | x :: y :: xs'', rest, fuel, hall, hne1, hf => by
    cases fuel with
    | zero => omega
    | succ f =>
      cases x <;> simp [arrAllStr] at hall
      case str s =>
        have hf1 : 0 < f := by
          simp only [List.length_cons] at hf
          omega
        rw [show stringifyElems (JsonVal.str s :: y :: xs'')
            = quoteStr s ++ ',' :: stringifyElems (y :: xs'') from rfl]
        simp only [List.append_assoc, List.cons_append]
        rw [parseElems,
          parseVal_quoteStr s (',' :: (stringifyElems (y :: xs'') ++ ']' :: rest)) f hf1]
        have hrec := parseElems_stringify (y :: xs'') rest f hall (by simp) (by
          simp only [List.length_cons] at hf ⊢
          omega)
        simp [skipWs_cons_of_not_ws ','
          (stringifyElems (y :: xs'') ++ ']' :: rest) (by decide), hrec]

theorem stringifyElems_cons_str (s : List Char) (xs' : List JsonVal) :
    ∃ tl, stringifyElems (JsonVal.str s :: xs') = '"' :: tl := by
  cases xs' with
  | nil => exact ⟨escBody s ++ ['"'], rfl⟩
  | cons y ys =>
    refine ⟨escBody s ++ ['"'] ++ ',' :: stringifyElems (y :: ys), ?_⟩
    rw [show stringifyElems (JsonVal.str s :: y :: ys)
        = quoteStr s ++ ',' :: stringifyElems (y :: ys) from rfl, quoteStr]
    simp

theorem parseVal_stringify_arr (xs : List JsonVal) (hall : arrAllStr xs = true)
    (rest : List Char) :
    ∀ fuel : Nat, xs.length + 2 ≤ fuel →
    parseVal fuel (jsonStringify (.arr xs) ++ rest) = some (.arr xs, rest) := by
  intro fuel hf
  cases fuel with
  | zero => omega
  | succ f =>
    rw [show jsonStringify (.arr xs) = '[' :: stringifyElems xs ++ [']'] from rfl]
    simp only [List.cons_append, List.append_assoc, List.nil_append]
    rw [parseVal,
      skipWs_cons_of_not_ws '[' (stringifyElems xs ++ ']' :: rest) (by decide)]
    cases xs with
    | nil =>
      simp [show stringifyElems ([] : List JsonVal) = [] from rfl,
        skipWs_cons_of_not_ws ']' rest (by decide)]
    | cons x xs' =>
      cases x <;> simp [arrAllStr] at hall
      case str s =>
        have hall2 : arrAllStr (JsonVal.str s :: xs') = true := by
          rw [arrAllStr]; exact hall
        obtain ⟨tl, htl⟩ := stringifyElems_cons_str s xs'
        have hrec := parseElems_stringify (JsonVal.str s :: xs') rest f hall2 (by simp)
          (by simp only [List.length_cons] at hf ⊢; omega)
        rw [htl, List.cons_append] at hrec
        simp [htl, List.cons_append,
          skipWs_cons_of_not_ws '"' (tl ++ ']' :: rest) (by decide), hrec]

theorem stringifyElems_length_ge : ∀ xs : List JsonVal, arrAllStr xs = true →
    xs.length ≤ (stringifyElems xs).length
  | [] => by intro; simp
  | [x] => by
    intro hall
    cases x <;> simp [arrAllStr] at hall
    case str s =>
      show 1 ≤ (quoteStr s).length
      rw [quoteStr]
      simp
  | x :: y :: xs'' => by
    intro hall
    cases x <;> simp [arrAllStr] at hall
    case str s =>
      have := stringifyElems_length_ge (y :: xs'') hall
      rw [show stringifyElems (JsonVal.str s :: y :: xs'')
          = quoteStr s ++ ',' :: stringifyElems (y :: xs'') from rfl]
      have hq : 1 ≤ (quoteStr s).length := by
        rw [quoteStr]
        simp
      simp only [List.length_append, List.length_cons] at this ⊢
      omega

theorem jsonParse_stringify (v : JsonVal) (hv : encTextOk v = true) :
    jsonParse (jsonStringify v) = some v := by
  cases v <;> simp only [encTextOk] at hv
  case numLit s => cases hv
  case boolean b => cases hv
  case null => cases hv
  case obj fs => cases hv
  case str s =>
    rw [jsonParse]
    have h := parseVal_quoteStr s [] (2 * (jsonStringify (.str s)).length + 2) (by omega)
    rw [List.append_nil] at h
    rw [show jsonStringify (.str s) = quoteStr s from rfl] at h ⊢
    rw [h]
    simp [skipWs]
  case arr xs =>
    rw [jsonParse]
    have hlen : xs.length ≤ (jsonStringify (.arr xs)).length := by
      rw [show jsonStringify (.arr xs) = '[' :: stringifyElems xs ++ [']'] from rfl]
      have := stringifyElems_length_ge xs (cleanArr_arrAllStr xs hv)
      simp only [List.length_cons, List.length_append]
      omega
    have h := parseVal_stringify_arr xs (cleanArr_arrAllStr xs hv) []
      (2 * (jsonStringify (.arr xs)).length + 2) (by omega)
    rw [List.append_nil] at h
    rw [h]
    simp [skipWs]

/-! ## Decoding the identity-translated batch -/

def rebuildRecs : List (List Char × JsonVal) → Obj → Obj
  | [], acc => acc
  | r :: rs, acc => rebuildRecs rs (omSet acc r.1 r.2)

theorem chars_slashslash : chars "//" = ['/', '/'] := rfl

theorem chars_eqeq : chars "==" = ['=', '='] := rfl

theorem jsSplit_joinTokens : ∀ (msgs : List (List Char × JsonVal)) (i : Nat),
    (∀ m ∈ msgs, encTextOk m.2 = true) → msgs ≠ [] →
    jsSplit (chars "//") (joinSep (chars "//") (encodeTokensGo i msgs)) =
      encodeTokensGo i msgs
  | [], _, _, hne => absurd rfl hne
  | [(k, t)], i, hok, _ => by
    have hok1 : encTextOk t = true := hok (k, t) (by simp)
    rw [show encodeTokensGo i [(k, t)] = [encodeToken i t] from rfl,
      show joinSep (chars "//") [encodeToken i t] = encodeToken i t from rfl,
      chars_slashslash]
    exact jsSplit_eq_single _ _ ((findSep_none_iff ['/', '/'] (by simp) _).2
      (encodeToken_no_ss i t hok1))
  | (k, t) :: m2 :: ms, i, hok, _ => by
    have hok1 : encTextOk t = true := hok (k, t) (by simp)
    rw [show encodeTokensGo i ((k, t) :: m2 :: ms)
        = encodeToken i t :: encodeTokensGo (i + 1) (m2 :: ms) from rfl]
    have hne2 : encodeTokensGo (i + 1) (m2 :: ms) ≠ [] := by
      cases m2
      simp [encodeTokensGo]
    cases htoks : encodeTokensGo (i + 1) (m2 :: ms) with
    | nil => exact absurd htoks hne2
    | cons t2 ts =>
      rw [show joinSep (chars "//") (encodeToken i t :: t2 :: ts)
          = encodeToken i t ++ chars "//" ++ joinSep (chars "//") (t2 :: ts) from rfl]
      rw [chars_slashslash]
      rw [jsSplit_eq_cons ['/', '/'] (by simp) _ _ _
        (findSep_cc '/' (joinSep ['/', '/'] (t2 :: ts)) (encodeToken i t)
          (encodeToken_no_ss i t hok1)
          (encodeToken_getLast_ne_sep '/' (Or.inl rfl) i t hok1))]
      have := jsSplit_joinTokens (m2 :: ms) (i + 1)
        (fun m hm => hok m (List.mem_cons_of_mem _ hm)) (by simp)
      rw [htoks, chars_slashslash] at this
      rw [this]

theorem decodeStep_encodeToken (messages : List (List Char × JsonVal)) (acc : Obj)
    (i : Nat) (k : List Char) (t : JsonVal) (hok : encTextOk t = true)
    (hidx : messages[i]? = some (k, t)) :
    decodeStep messages acc (encodeToken i t) = .ok (omSet acc k t) := by
  rw [decodeStep]
  simp [jsSplit_encodeToken i t hok, jsArrayIndex?_natRepr i, hidx, parseValueOpt,
    jsonParse_stringify t hok]

theorem decodeFold_encode : ∀ (msgs : List (List Char × JsonVal)) (i : Nat) (acc : Obj)
    (messages : List (List Char × JsonVal)),
    (∀ m ∈ msgs, encTextOk m.2 = true) →
    (∀ j, j < msgs.length → messages[i + j]? = msgs[j]?) →
    decodeFold messages acc (encodeTokensGo i msgs) = .ok (rebuildRecs msgs acc)
  | [], _, _, _, _, _ => rfl
  | (k, t) :: ms, i, acc, messages, hok, hidx => by
    have hok1 : encTextOk t = true := hok (k, t) (by simp)
    have hidx0 : messages[i]? = some (k, t) := by
      have := hidx 0 (by simp)
      simpa using this
    rw [show encodeTokensGo i ((k, t) :: ms)
        = encodeToken i t :: encodeTokensGo (i + 1) ms from rfl]
    rw [decodeFold, decodeStep_encodeToken messages acc i k t hok1 hidx0]
    rw [show rebuildRecs ((k, t) :: ms) acc = rebuildRecs ms (omSet acc k t) from rfl]
    exact decodeFold_encode ms (i + 1) (omSet acc k t) messages
      (fun m hm => hok m (List.mem_cons_of_mem _ hm))
      (fun j hj => by
        have := hidx (j + 1) (by simp only [List.length_cons]; omega)
        rw [show i + (j + 1) = i + 1 + j by omega] at this
        simpa using this)

theorem decodeRebuild_encodeBatch (msgs : List (List Char × JsonVal))
    (hok : ∀ m ∈ msgs, encTextOk m.2 = true) (hne : msgs ≠ []) :
    decodeRebuild msgs (encodeBatch msgs) = .ok (rebuildRecs msgs []) := by
  rw [decodeRebuild, encodeBatch, jsSplit_joinTokens msgs 0 hok hne]
  exact decodeFold_encode msgs 0 [] msgs hok (fun j hj => by simp)

/-! ## A zipper-style update operation and path predicates, for reasoning
about the rebuild step -/

/-- Rewrite the object located at path `pre`, creating intermediate levels
(as fresh empty objects fed to `f`) where the path does not exist yet. -/
def updAt : Obj → List (List Char) → (Obj → Obj) → Obj
  | o, [], f => f o
  | o, k :: rest, f =>
    match lookupKey o k with
    | some (.obj sub) => replaceKey o k (.obj (updAt sub rest f))
    | some _ => replaceKey o k (.obj (updAt [] rest f))
    | none => o ++ [(k, .obj (updAt [] rest f))]

/-- The path `pre` exists in `o` (every step is an object), and leads to `sib`. -/
inductive AtS : Obj → List (List Char) → Obj → Prop where
  | nil (o : Obj) : AtS o [] o
  | step {o : Obj} {k : List Char} {sub sib : Obj} {rest : List (List Char)} :
      lookupKey o k = some (.obj sub) → AtS sub rest sib → AtS o (k :: rest) sib

/-- The path `pre` either exists in `o` and leads to `sib`, or stops at a
missing key (then `sib = []`: the location is yet to be created). -/
inductive AtC : Obj → List (List Char) → Obj → Prop where
  | nil (o : Obj) : AtC o [] o
  | step {o : Obj} {k : List Char} {sub sib : Obj} {rest : List (List Char)} :
      lookupKey o k = some (.obj sub) → AtC sub rest sib → AtC o (k :: rest) sib
  | create {o : Obj} {k : List Char} {rest : List (List Char)} :
      lookupKey o k = none → AtC o (k :: rest) []

theorem AtS.toAtC {o : Obj} {pre : List (List Char)} {sib : Obj} (h : AtS o pre sib) :
    AtC o pre sib := by
  induction h with
  | nil o => exact AtC.nil o
  | step hl _ ih => exact AtC.step hl ih

theorem lookupKey_replaceKey : ∀ (o : Obj) (k : List Char) (v w : JsonVal),
    lookupKey o k = some w → lookupKey (replaceKey o k v) k = some v
  | [], _, _, _ => by simp [lookupKey]
  | (k0, v0) :: rest, k, v, w => by
    intro h
    rw [replaceKey]
    by_cases hk : k0 = k
    · rw [if_pos hk, lookupKey, if_pos hk]
    · rw [if_neg hk, lookupKey, if_neg hk]
      rw [lookupKey, if_neg hk] at h
      exact lookupKey_replaceKey rest k v w h

theorem lookupKey_append_self : ∀ (o : Obj) (k : List Char) (v : JsonVal),
    lookupKey o k = none → lookupKey (o ++ [(k, v)]) k = some v
  | [], k, v => by
    intro
    simp [lookupKey]
  | (k0, v0) :: rest, k, v => by
    intro h
    rw [lookupKey] at h
    have hk : ¬ k0 = k := by
      intro hk
      rw [if_pos hk] at h
      cases h
    rw [if_neg hk] at h
    rw [List.cons_append, lookupKey, if_neg hk]
    exact lookupKey_append_self rest k v h

theorem replaceKey_self : ∀ (o : Obj) (k : List Char) (v : JsonVal),
    lookupKey o k = some v → replaceKey o k v = o
  | [], _, _ => by simp [lookupKey]
  | (k0, v0) :: rest, k, v => by
    intro h
    rw [lookupKey] at h
    rw [replaceKey]
    by_cases hk : k0 = k
    · rw [if_pos hk] at h
      rw [if_pos hk]
      cases h
      rfl
    · rw [if_neg hk] at h
      rw [if_neg hk, replaceKey_self rest k v h]

theorem replaceKey_replaceKey : ∀ (o : Obj) (k : List Char) (v w : JsonVal),
    replaceKey (replaceKey o k v) k w = replaceKey o k w
  | [], _, _, _ => rfl
  | (k0, v0) :: rest, k, v, w => by
    rw [replaceKey]
    by_cases hk : k0 = k
    · rw [if_pos hk, replaceKey, if_pos hk, replaceKey, if_pos hk]
    · rw [if_neg hk, replaceKey, if_neg hk, replaceKey, if_neg hk,
        replaceKey_replaceKey rest k v w]

theorem replaceKey_append_self : ∀ (o : Obj) (k : List Char) (v w : JsonVal),
    lookupKey o k = none → replaceKey (o ++ [(k, v)]) k w = o ++ [(k, w)]
  | [], k, v, w => by
    intro
    simp [replaceKey]
  | (k0, v0) :: rest, k, v, w => by
    intro h
    rw [lookupKey] at h
    have hk : ¬ k0 = k := by
      intro hk
      rw [if_pos hk] at h
      cases h
    rw [if_neg hk] at h
    rw [List.cons_append, replaceKey, if_neg hk, replaceKey_append_self rest k v w h,
      List.cons_append]

theorem updAt_cons_obj {o : Obj} {k : List Char} {sub : Obj} {rest : List (List Char)}
    {f : Obj → Obj} (h : lookupKey o k = some (.obj sub)) :
    updAt o (k :: rest) f = replaceKey o k (.obj (updAt sub rest f)) := by
  rw [updAt, h]

theorem updAt_cons_none {o : Obj} {k : List Char} {rest : List (List Char)}
    {f : Obj → Obj} (h : lookupKey o k = none) :
    updAt o (k :: rest) f = o ++ [(k, .obj (updAt [] rest f))] := by
  rw [updAt, h]

theorem updAt_cons_nonobj {o : Obj} {k : List Char} {v : JsonVal}
    {rest : List (List Char)} {f : Obj → Obj}
    (h : lookupKey o k = some v) (hv : ∀ sub, v ≠ JsonVal.obj sub) :
    updAt o (k :: rest) f = replaceKey o k (.obj (updAt [] rest f)) := by
  rw [updAt, h]
  cases v with
  | obj sub => exact absurd rfl (hv sub)
  | str s => rfl
  | numLit s => rfl
  | boolean b => rfl
  | null => rfl
  | arr xs => rfl

theorem updAt_empty_congr : ∀ (rest : List (List Char)) (f g : Obj → Obj),
    f [] = g [] → updAt [] rest f = updAt [] rest g
  | [], f, g, h => h
  | k :: rest, f, g, h => by
    rw [updAt_cons_none (show lookupKey ([] : Obj) k = none from rfl),
      updAt_cons_none (show lookupKey ([] : Obj) k = none from rfl),
      updAt_empty_congr rest f g h]

theorem updAt_congr : ∀ {o : Obj} {pre : List (List Char)} {sib : Obj}, AtC o pre sib →
    ∀ f : Obj → Obj, updAt o pre f = updAt o pre (fun _ => f sib)
  | _, _, _, AtC.nil o, f => rfl
  | o, _, sib, @AtC.step _ k sub _ rest hl hsub, f => by
    rw [updAt_cons_obj hl, updAt_cons_obj hl, updAt_congr hsub f]
  | o, _, _, @AtC.create _ k rest hl, f => by
    rw [updAt_cons_none hl, updAt_cons_none hl,
      updAt_empty_congr rest f (fun _ => f []) rfl]

theorem updAt_comp : ∀ (pre : List (List Char)) (o : Obj) (f g : Obj → Obj),
    updAt (updAt o pre f) pre g = updAt o pre (fun s => g (f s))
  | [], o, f, g => rfl
  | k :: rest, o, f, g => by
    cases hlk : lookupKey o k with
    | some v =>
      cases v with
      | obj sub =>
        rw [updAt_cons_obj hlk,
          updAt_cons_obj (lookupKey_replaceKey o k _ _ hlk),
          replaceKey_replaceKey, updAt_comp rest sub f g, updAt_cons_obj hlk]
      | str s =>
        rw [updAt_cons_nonobj hlk (by intro sub h; cases h),
          updAt_cons_obj (lookupKey_replaceKey o k _ _ hlk),
          replaceKey_replaceKey, updAt_comp rest [] f g,
          updAt_cons_nonobj hlk (by intro sub h; cases h)]
      | numLit s =>
        rw [updAt_cons_nonobj hlk (by intro sub h; cases h),
          updAt_cons_obj (lookupKey_replaceKey o k _ _ hlk),
          replaceKey_replaceKey, updAt_comp rest [] f g,
          updAt_cons_nonobj hlk (by intro sub h; cases h)]
      | boolean b =>
        rw [updAt_cons_nonobj hlk (by intro sub h; cases h),
          updAt_cons_obj (lookupKey_replaceKey o k _ _ hlk),
          replaceKey_replaceKey, updAt_comp rest [] f g,
          updAt_cons_nonobj hlk (by intro sub h; cases h)]
      | null =>
        rw [updAt_cons_nonobj hlk (by intro sub h; cases h),
          updAt_cons_obj (lookupKey_replaceKey o k _ _ hlk),
          replaceKey_replaceKey, updAt_comp rest [] f g,
          updAt_cons_nonobj hlk (by intro sub h; cases h)]
      | arr xs =>
        rw [updAt_cons_nonobj hlk (by intro sub h; cases h),
          updAt_cons_obj (lookupKey_replaceKey o k _ _ hlk),
          replaceKey_replaceKey, updAt_comp rest [] f g,
          updAt_cons_nonobj hlk (by intro sub h; cases h)]
    | none =>
      rw [updAt_cons_none hlk,
        updAt_cons_obj (lookupKey_append_self o k _ hlk),
        replaceKey_append_self o k _ _ hlk, updAt_comp rest [] f g,
        updAt_cons_none hlk]

theorem updAt_append : ∀ (pre suf : List (List Char)) (o : Obj) (f : Obj → Obj),
    updAt o (pre ++ suf) f = updAt o pre (fun s => updAt s suf f)
  | [], suf, o, f => rfl
  | k :: rest, suf, o, f => by
    rw [List.cons_append]
    cases hlk : lookupKey o k with
    | some v =>
      cases v with
      | obj sub =>
        rw [updAt_cons_obj hlk, updAt_cons_obj hlk, updAt_append rest suf sub f]
      | str s =>
        rw [updAt_cons_nonobj hlk (by intro sub h; cases h),
          updAt_cons_nonobj hlk (by intro sub h; cases h), updAt_append rest suf [] f]
      | numLit s =>
        rw [updAt_cons_nonobj hlk (by intro sub h; cases h),
          updAt_cons_nonobj hlk (by intro sub h; cases h), updAt_append rest suf [] f]
      | boolean b =>
        rw [updAt_cons_nonobj hlk (by intro sub h; cases h),
          updAt_cons_nonobj hlk (by intro sub h; cases h), updAt_append rest suf [] f]
      | null =>
        rw [updAt_cons_nonobj hlk (by intro sub h; cases h),
          updAt_cons_nonobj hlk (by intro sub h; cases h), updAt_append rest suf [] f]
      | arr xs =>
        rw [updAt_cons_nonobj hlk (by intro sub h; cases h),
          updAt_cons_nonobj hlk (by intro sub h; cases h), updAt_append rest suf [] f]
    | none =>
      rw [updAt_cons_none hlk, updAt_cons_none hlk, updAt_append rest suf [] f]

theorem AtS_updAt_empty : ∀ (rest : List (List Char)) (f : Obj → Obj),
    AtS (updAt [] rest f) rest (f [])
  | [], f => AtS.nil (f [])
  | k :: rest, f => by
    rw [updAt_cons_none (show lookupKey ([] : Obj) k = none from rfl), List.nil_append]
    exact AtS.step (by rw [lookupKey, if_pos rfl]) (AtS_updAt_empty rest f)

theorem AtS_updAt : ∀ {o : Obj} {pre : List (List Char)} {sib : Obj}, AtC o pre sib →
    ∀ f : Obj → Obj, AtS (updAt o pre f) pre (f sib)
  | _, _, _, AtC.nil o, f => AtS.nil (f o)
  | o, _, sib, @AtC.step _ k sub _ rest hl hsub, f => by
    rw [updAt_cons_obj hl]
    exact AtS.step (lookupKey_replaceKey _ _ _ _ hl) (AtS_updAt hsub f)
  | o, _, _, @AtC.create _ k rest hl, f => by
    rw [updAt_cons_none hl]
    exact AtS.step (lookupKey_append_self _ _ _ hl) (AtS_updAt_empty rest f)

theorem updAt_const_self : ∀ {o : Obj} {pre : List (List Char)} {sib : Obj},
    AtS o pre sib → updAt o pre (fun _ => sib) = o
  | _, _, _, AtS.nil o => rfl
  | o, _, sib, @AtS.step _ k sub _ rest hl hsub => by
    rw [updAt_cons_obj hl, updAt_const_self hsub]
    exact replaceKey_self _ _ _ hl

theorem AtC_append_create : ∀ {o : Obj} {pre : List (List Char)} {sib : Obj},
    AtC o pre sib → ∀ (k : List Char) (suf : List (List Char)),
    lookupKey sib k = none → AtC o (pre ++ k :: suf) []
  | _, _, _, AtC.nil o, k, suf, hk => AtC.create hk
  | o, _, sib, @AtC.step _ k0 sub _ rest hl hsub, k, suf, hk =>
    AtC.step hl (AtC_append_create hsub k suf hk)
  | o, _, _, @AtC.create _ k0 rest hl, k, suf, hk => AtC.create hl

/-! ## Rebuild undoes extraction (segment level) -/

def rebuildSegsFold : List (List (List Char) × JsonVal) → Obj → Obj
  | [], acc => acc
  | r :: rs, acc => rebuildSegsFold rs (omSetSegs acc r.1 r.2)

mutual
def extractSegs : Obj → List (List Char) → List (List (List Char) × JsonVal)
  | [], _ => []
  | (k, v) :: rest, pre => extractSegsEntry k v pre ++ extractSegs rest pre

def extractSegsEntry : List Char → JsonVal → List (List Char) →
    List (List (List Char) × JsonVal)
  | k, .str s, pre => if s.isEmpty then [] else [(pre ++ [k], .str s)]
  | k, .arr xs, pre => if xs.isEmpty then [] else [(pre ++ [k], .arr xs)]
  | k, .obj fs, pre => if fs.isEmpty then [] else extractSegs fs (pre ++ [k])
  | _, _, _ => []
end

theorem rebuildSegsFold_append (a b : List (List (List Char) × JsonVal)) :
    ∀ acc, rebuildSegsFold (a ++ b) acc = rebuildSegsFold b (rebuildSegsFold a acc) := by
  induction a with
  | nil => intro acc; rfl
  | cons r rs ih =>
    intro acc
    rw [List.cons_append, rebuildSegsFold, rebuildSegsFold, ih]

theorem hasKey_append (a b : Obj) (key : List Char) :
    hasKey (a ++ b) key = (hasKey a key || hasKey b key) := by
  induction a with
  | nil => rw [List.nil_append]; rfl
  | cons kv rest ih =>
    obtain ⟨k0, v0⟩ := kv
    rw [List.cons_append, hasKey, hasKey, ih, Bool.or_assoc]

theorem hasKey_false_of_mem {o : Obj} {key k' : List Char} {v' : JsonVal}
    (h : hasKey o key = false) (hm : (k', v') ∈ o) : ¬ k' = key := by
  induction o with
  | nil => cases hm
  | cons kv rest ih =>
    obtain ⟨k0, v0⟩ := kv
    rw [hasKey, Bool.or_eq_false_iff] at h
    rcases List.mem_cons.1 hm with heq | hm2
    · cases heq
      intro hk
      rw [decide_eq_true hk] at h
      cases h.1
    · exact ih h.2 hm2

theorem lookupKey_none_of_hasKey_false : ∀ {o : Obj} {key : List Char},
    hasKey o key = false → lookupKey o key = none := by
  intro o
  induction o with
  | nil => intro key _; rfl
  | cons kv rest ih =>
    obtain ⟨k0, v0⟩ := kv
    intro key h
    rw [hasKey, Bool.or_eq_false_iff] at h
    rw [lookupKey, if_neg (by
      intro hk
      rw [decide_eq_true hk] at h
      cases h.1)]
    exact ih h.2

theorem setKey_of_none {o : Obj} {k : List Char} {v : JsonVal}
    (h : lookupKey o k = none) : setKey o k v = o ++ [(k, v)] := by
  rw [setKey, h]

theorem omSetSegs_cons2_obj {o : Obj} {k : List Char} {sub : Obj} {r : List Char}
    {rs : List (List Char)} {v : JsonVal} (h : lookupKey o k = some (.obj sub)) :
    omSetSegs o (k :: r :: rs) v = replaceKey o k (.obj (omSetSegs sub (r :: rs) v)) := by
  rw [omSetSegs, h]

theorem omSetSegs_cons2_none {o : Obj} {k : List Char} {r : List Char}
    {rs : List (List Char)} {v : JsonVal} (h : lookupKey o k = none) :
    omSetSegs o (k :: r :: rs) v = o ++ [(k, .obj (omSetSegs [] (r :: rs) v))] := by
  rw [omSetSegs, h]

theorem omSetSegs_cons2_nonobj {o : Obj} {k : List Char} {w : JsonVal} {r : List Char}
    {rs : List (List Char)} {v : JsonVal} (h : lookupKey o k = some w)
    (hw : ∀ sub, w ≠ JsonVal.obj sub) :
    omSetSegs o (k :: r :: rs) v = replaceKey o k (.obj (omSetSegs [] (r :: rs) v)) := by
  rw [omSetSegs, h]
  cases w with
  | obj sub => exact absurd rfl (hw sub)
  | str s => rfl
  | numLit s => rfl
  | boolean b => rfl
  | null => rfl
  | arr xs => rfl

theorem omSetSegs_cons_eq (o : Obj) (k : List Char) (r : List Char)
    (rs : List (List Char)) (v : JsonVal) :
    omSetSegs o (k :: r :: rs) v = updAt o [k] (fun sub => omSetSegs sub (r :: rs) v) := by
  cases hlk : lookupKey o k with
  | some w =>
    cases w with
    | obj sub =>
      rw [omSetSegs_cons2_obj hlk, updAt_cons_obj hlk]
      rfl
    | str s =>
      rw [omSetSegs_cons2_nonobj hlk (by intro sub h; cases h),
        updAt_cons_nonobj hlk (by intro sub h; cases h)]
      rfl
    | numLit s =>
      rw [omSetSegs_cons2_nonobj hlk (by intro sub h; cases h),
        updAt_cons_nonobj hlk (by intro sub h; cases h)]
      rfl
    | boolean b =>
      rw [omSetSegs_cons2_nonobj hlk (by intro sub h; cases h),
        updAt_cons_nonobj hlk (by intro sub h; cases h)]
      rfl
    | null =>
      rw [omSetSegs_cons2_nonobj hlk (by intro sub h; cases h),
        updAt_cons_nonobj hlk (by intro sub h; cases h)]
      rfl
    | arr xs =>
      rw [omSetSegs_cons2_nonobj hlk (by intro sub h; cases h),
        updAt_cons_nonobj hlk (by intro sub h; cases h)]
      rfl
  | none =>
    rw [omSetSegs_cons2_none hlk, updAt_cons_none hlk]
    rfl

theorem omSetSegs_eq_updAt : ∀ (pre : List (List Char)) (o : Obj) (k : List Char)
    (v : JsonVal),
    omSetSegs o (pre ++ [k]) v = updAt o pre (fun sub => setKey sub k v)
  | [], o, k, v => rfl
  | k0 :: pre', o, k, v => by
    have hne : pre' ++ [k] ≠ [] := by simp
    cases hsh : pre' ++ [k] with
    | nil => exact absurd hsh hne
    | cons r rs =>
      rw [show (k0 :: pre') ++ [k] = k0 :: (pre' ++ [k]) from rfl, hsh,
        omSetSegs_cons_eq, ← hsh,
        show (k0 :: pre' : List (List Char)) = [k0] ++ pre' from rfl,
        updAt_append [k0] pre' o _]
      exact congrArg (updAt o [k0]) (funext fun sub => omSetSegs_eq_updAt pre' sub k v)

theorem updAt_single_none {o : Obj} {k : List Char} (fs : Obj)
    (h : lookupKey o k = none) :
    updAt o [k] (fun _ => fs) = o ++ [(k, .obj fs)] := by
  rw [updAt_cons_none h]
  rfl

theorem rebuildSegs_cons_cont (k : List Char) (v : JsonVal) (rest : Obj)
    (pre : List (List Char)) (acc sib : Obj)
    (hkey : hasKey rest k = false)
    (hdisj : ∀ kv ∈ ((k, v) :: rest : Obj), hasKey sib kv.1 = false)
    (hhead : rebuildSegsFold (extractSegsEntry k v pre) acc
      = updAt acc pre (fun _ => sib ++ [(k, v)]))
    (hat : AtC acc pre sib)
    (ihrest : ∀ acc' sib', AtC acc' pre sib' → (rest = [] → AtS acc' pre sib') →
      (∀ kv ∈ rest, hasKey sib' kv.1 = false) →
      rebuildSegsFold (extractSegs rest pre) acc' = updAt acc' pre (fun _ => sib' ++ rest)) :
    rebuildSegsFold (extractSegs ((k, v) :: rest) pre) acc
      = updAt acc pre (fun _ => sib ++ (k, v) :: rest) := by
  rw [show extractSegs ((k, v) :: rest) pre
      = extractSegsEntry k v pre ++ extractSegs rest pre from rfl,
    rebuildSegsFold_append, hhead]
  have hat2 : AtS (updAt acc pre (fun _ => sib ++ [(k, v)])) pre (sib ++ [(k, v)]) :=
    AtS_updAt hat _
  have hdisj2 : ∀ kv ∈ rest, hasKey (sib ++ [(k, v)]) kv.1 = false := by
    intro kv hkv
    rw [hasKey_append, Bool.or_eq_false_iff]
    refine ⟨hdisj kv (List.mem_cons_of_mem _ hkv), ?_⟩
    obtain ⟨k', v'⟩ := kv
    have hne := hasKey_false_of_mem hkey hkv
    rw [hasKey, hasKey, Bool.or_eq_false_iff]
    exact ⟨decide_eq_false (fun hk => hne hk.symm), rfl⟩
  rw [ihrest _ _ hat2.toAtC (fun _ => hat2) hdisj2, updAt_comp]
  simp only [List.append_assoc, List.singleton_append]

theorem rebuildSegsFold_extractSegs :
    ∀ (fields : Obj) (pre : List (List Char)) (acc sib : Obj),
    goodFields fields = true →
    AtC acc pre sib →
    (fields = [] → AtS acc pre sib) →
    (∀ kv ∈ fields, hasKey sib kv.1 = false) →
    rebuildSegsFold (extractSegs fields pre) acc = updAt acc pre (fun _ => sib ++ fields)
  | [], pre, acc, sib => by
    intro _ _ hstrict _
    rw [show extractSegs [] pre = [] from rfl]
    show acc = updAt acc pre (fun _ => sib ++ [])
    simp only [List.append_nil]
    exact (updAt_const_self (hstrict rfl)).symm
  | (k, v) :: rest, pre, acc, sib => by
    intro hgood hat hstrict hdisj
    rw [goodFields] at hgood
    simp only [Bool.and_eq_true, Bool.not_eq_true'] at hgood
    obtain ⟨⟨hv, hkey⟩, hrest⟩ := hgood
    have hnone : lookupKey sib k = none :=
      lookupKey_none_of_hasKey_false (hdisj (k, v) (by simp))
    refine rebuildSegs_cons_cont k v rest pre acc sib hkey hdisj ?_ hat
      (fun acc' sib' h1 h2 h3 =>
        rebuildSegsFold_extractSegs rest pre acc' sib' hrest h1 h2 h3)
    cases v with
    | str s =>
      rw [goodVal, Bool.not_eq_true'] at hv
      rw [show extractSegsEntry k (.str s) pre
          = if s.isEmpty then [] else [(pre ++ [k], JsonVal.str s)] from rfl,
        if_neg (by simp [hv])]
      show omSetSegs acc (pre ++ [k]) (JsonVal.str s)
        = updAt acc pre (fun _ => sib ++ [(k, JsonVal.str s)])
      rw [omSetSegs_eq_updAt, updAt_congr hat, setKey_of_none hnone]
    | arr xs =>
      rw [goodVal, Bool.and_eq_true, Bool.not_eq_true'] at hv
      rw [show extractSegsEntry k (.arr xs) pre
          = if xs.isEmpty then [] else [(pre ++ [k], JsonVal.arr xs)] from rfl,
        if_neg (by simp [hv.1])]
      show omSetSegs acc (pre ++ [k]) (JsonVal.arr xs)
        = updAt acc pre (fun _ => sib ++ [(k, JsonVal.arr xs)])
      rw [omSetSegs_eq_updAt, updAt_congr hat, setKey_of_none hnone]
    | obj fs =>
      rw [goodVal, Bool.and_eq_true, Bool.not_eq_true'] at hv
      obtain ⟨hne, hfs⟩ := hv
      rw [show extractSegsEntry k (.obj fs) pre
          = if fs.isEmpty then [] else extractSegs fs (pre ++ [k]) from rfl,
        if_neg (by simp [hne])]
      have hfsne : fs ≠ [] := by
        intro h0
        rw [h0] at hne
        cases hne
      have hinner := rebuildSegsFold_extractSegs fs (pre ++ [k]) acc [] hfs
        (AtC_append_create hat k [] hnone)
        (fun h0 => absurd h0 hfsne)
        (fun kv _ => rfl)
      simp only [List.nil_append] at hinner
      rw [hinner, updAt_append pre [k] acc _, updAt_congr hat, updAt_single_none fs hnone]
    | numLit s =>
      rw [show goodVal (JsonVal.numLit s) = false from rfl] at hv
      cases hv
    | boolean b =>
      rw [show goodVal (JsonVal.boolean b) = false from rfl] at hv
      cases hv
    | null =>
      rw [show goodVal JsonVal.null = false from rfl] at hv
      cases hv

/-! ## Bridging slash-joined path strings and key chains -/

def joinSegs : List (List Char) → List Char := joinSep ['/']

def curOf : List (List Char) → Option (List Char)
  | [] => none
  | p :: ps => some (joinSegs (p :: ps))

theorem joinSegs_append_single : ∀ (p : List Char) (ps : List (List Char)) (k : List Char),
    joinSegs ((p :: ps) ++ [k]) = joinSegs (p :: ps) ++ '/' :: k
  | p, [], k => by
    show p ++ ['/'] ++ k = p ++ '/' :: k
    simp
  | p, q :: qs, k => by
    show p ++ ['/'] ++ joinSegs ((q :: qs) ++ [k]) = (p ++ ['/'] ++ joinSegs (q :: qs)) ++ '/' :: k
    rw [joinSegs_append_single q qs k]
    simp

theorem curOf_append_single (pre : List (List Char)) (k : List Char) :
    curOf (pre ++ [k]) = some (joinSegs (pre ++ [k])) := by
  cases pre with
  | nil => rfl
  | cons p ps => rfl

theorem empty_isEmpty_false {l : List Char} (h : l ≠ []) : l.isEmpty = false := by
  cases l with
  | nil => exact absurd rfl h
  | cons a as => rfl

theorem joinKey_curOf (pre : List (List Char)) (k : List Char)
    (hpre : pre = [] ∨ joinSegs pre ≠ []) :
    joinKey (curOf pre) k = joinSegs (pre ++ [k]) := by
  cases pre with
  | nil => rfl
  | cons p ps =>
    have hne : joinSegs (p :: ps) ≠ [] := by
      rcases hpre with h | h
      · cases h
      · exact h
    show (if (joinSegs (p :: ps)).isEmpty then k else joinSegs (p :: ps) ++ '/' :: k)
        = joinSegs ((p :: ps) ++ [k])
    rw [empty_isEmpty_false hne, joinSegs_append_single p ps k]
    rfl

theorem joinSegs_append_ne_nil {pre : List (List Char)} {k : List Char}
    (hpre : pre = [] ∨ joinSegs pre ≠ []) (hk : k.isEmpty = false) :
    joinSegs (pre ++ [k]) ≠ [] := by
  cases pre with
  | nil =>
    show joinSegs [k] ≠ []
    intro h
    have hk2 : k = [] := h
    rw [hk2] at hk
    cases hk
  | cons p ps =>
    rw [joinSegs_append_single p ps k]
    simp

mutual
theorem resolvePaths_eq_segs : ∀ (fields : Obj) (pre : List (List Char)),
    (pre = [] ∨ joinSegs pre ≠ []) → neKeysFields fields = true →
    resolvePaths fields (curOf pre)
      = (extractSegs fields pre).map (fun r => (joinSegs r.1, r.2))
  | [], pre, _, _ => rfl
  | (k, v) :: rest, pre, hpre, hkeys => by
    have h0 : (!k.isEmpty && neKeysVal v && neKeysFields rest) = true := hkeys
    simp only [Bool.and_eq_true, Bool.not_eq_true'] at h0
    rw [show resolvePaths ((k, v) :: rest) (curOf pre)
        = resolveEntry k v (curOf pre) ++ resolvePaths rest (curOf pre) from rfl,
      show extractSegs ((k, v) :: rest) pre
        = extractSegsEntry k v pre ++ extractSegs rest pre from rfl,
      List.map_append, resolveEntry_eq_segs k v pre hpre h0.1.1 h0.1.2,
      resolvePaths_eq_segs rest pre hpre h0.2]

theorem resolveEntry_eq_segs : ∀ (k : List Char) (v : JsonVal) (pre : List (List Char)),
    (pre = [] ∨ joinSegs pre ≠ []) → k.isEmpty = false → neKeysVal v = true →
    resolveEntry k v (curOf pre)
      = (extractSegsEntry k v pre).map (fun r => (joinSegs r.1, r.2))
  | k, .str s, pre, hpre, _, _ => by
    rw [show resolveEntry k (.str s) (curOf pre)
        = if s.isEmpty then [] else [(joinKey (curOf pre) k, JsonVal.str s)] from rfl,
      show extractSegsEntry k (.str s) pre
        = if s.isEmpty then [] else [(pre ++ [k], JsonVal.str s)] from rfl]
    by_cases hs : s.isEmpty
    · rw [if_pos hs, if_pos hs]
      rfl
    · rw [if_neg hs, if_neg hs, List.map_singleton, joinKey_curOf pre k hpre]
  | k, .arr xs, pre, hpre, _, _ => by
    rw [show resolveEntry k (.arr xs) (curOf pre)
        = if xs.isEmpty then [] else [(joinKey (curOf pre) k, JsonVal.arr xs)] from rfl,
      show extractSegsEntry k (.arr xs) pre
        = if xs.isEmpty then [] else [(pre ++ [k], JsonVal.arr xs)] from rfl]
    by_cases hs : xs.isEmpty
    · rw [if_pos hs, if_pos hs]
      rfl
    · rw [if_neg hs, if_neg hs, List.map_singleton, joinKey_curOf pre k hpre]
  | k, .obj fs, pre, hpre, hk, hv => by
    rw [show resolveEntry k (.obj fs) (curOf pre)
        = if fs.isEmpty then [] else resolvePaths fs (some (joinKey (curOf pre) k)) from rfl,
      show extractSegsEntry k (.obj fs) pre
        = if fs.isEmpty then [] else extractSegs fs (pre ++ [k]) from rfl]
    by_cases hs : fs.isEmpty
    · rw [if_pos hs, if_pos hs]
      rfl
    · rw [if_neg hs, if_neg hs, joinKey_curOf pre k hpre, ← curOf_append_single,
        resolvePaths_eq_segs fs (pre ++ [k])
          (Or.inr (joinSegs_append_ne_nil hpre hk)) hv]
  | k, .numLit s, pre, _, _, _ => rfl
  | k, .boolean b, pre, _, _, _ => rfl
  | k, .null, pre, _, _, _ => rfl
end

theorem jsSplit_single_join : ∀ (parts : List (List Char)) (c : Char),
    parts ≠ [] → (∀ p ∈ parts, c ∉ p) →
    jsSplit [c] (joinSep [c] parts) = parts
  | [], _, hne, _ => absurd rfl hne
  | [p], c, _, hmem => by
    rw [show joinSep [c] [p] = p from rfl]
    refine jsSplit_eq_single [c] p ((findSep_none_iff [c] (by simp) p).2 ?_)
    intro hinf
    exact hmem p (by simp) ((singleton_infix_iff c p).1 hinf)
  | p :: q :: rest, c, _, hmem => by
    rw [show joinSep [c] (p :: q :: rest) = p ++ [c] ++ joinSep [c] (q :: rest) from rfl]
    rw [List.append_assoc, List.singleton_append]
    rw [jsSplit_eq_cons [c] (by simp) _ _ _
      (findSep_single c (joinSep [c] (q :: rest)) p (hmem p (by simp)))]
    rw [jsSplit_single_join (q :: rest) c (by simp)
      (fun x hx => hmem x (List.mem_cons_of_mem _ hx))]

theorem omSet_joinSegs (chain : List (List Char)) (hne : chain ≠ [])
    (hfree : ∀ p ∈ chain, '/' ∉ p) (acc : Obj) (v : JsonVal) :
    omSet acc (joinSegs chain) v = omSetSegs acc chain v := by
  rw [omSet, joinSegs, jsSplit_single_join chain '/' hne hfree]

theorem rebuildRecs_map_segs : ∀ (rs : List (List (List Char) × JsonVal)) (acc : Obj),
    (∀ r ∈ rs, r.1 ≠ [] ∧ ∀ p ∈ r.1, '/' ∉ p) →
    rebuildRecs (rs.map (fun r => (joinSegs r.1, r.2))) acc = rebuildSegsFold rs acc
  | [], acc, _ => rfl
  | r :: rs, acc, h => by
    rw [List.map_cons, rebuildRecs, rebuildSegsFold]
    have hr := h r (by simp)
    rw [show ((joinSegs r.1, r.2) : List Char × JsonVal).1 = joinSegs r.1 from rfl,
      show ((joinSegs r.1, r.2) : List Char × JsonVal).2 = r.2 from rfl,
      omSet_joinSegs r.1 hr.1 hr.2 acc r.2]
    exact rebuildRecs_map_segs rs _ (fun x hx => h x (List.mem_cons_of_mem _ hx))

theorem contains_false_not_mem {k : List Char} {c : Char} (h : k.contains c = false) :
    c ∉ k := by
  intro hm
  have := List.elem_eq_true_of_mem hm
  rw [show k.contains c = k.elem c from rfl, this] at h
  cases h

theorem chains_append_key {pre : List (List Char)} {k : List Char}
    (hpre : ∀ p ∈ pre, '/' ∉ p) (hk : k.contains '/' = false) :
    pre ++ [k] ≠ [] ∧ ∀ p ∈ pre ++ [k], '/' ∉ p := by
  refine ⟨by simp, ?_⟩
  intro p hp
  rw [List.mem_append, List.mem_singleton] at hp
  rcases hp with hp | rfl
  · exact hpre p hp
  · exact contains_false_not_mem hk

mutual
theorem extractSegs_chains : ∀ (fields : Obj) (pre : List (List Char)),
    slashFreeFields fields = true → (∀ p ∈ pre, '/' ∉ p) →
    ∀ r ∈ extractSegs fields pre, r.1 ≠ [] ∧ ∀ p ∈ r.1, '/' ∉ p
  | [], _, _, _ => by intro r hr; cases hr
  | (k, v) :: rest, pre, hfree, hpre => by
    rw [slashFreeFields, Bool.and_eq_true, Bool.and_eq_true, Bool.not_eq_true'] at hfree
    obtain ⟨⟨hk, hv⟩, hrest⟩ := hfree
    intro r hr
    rw [show extractSegs ((k, v) :: rest) pre
        = extractSegsEntry k v pre ++ extractSegs rest pre from rfl,
      List.mem_append] at hr
    rcases hr with hr | hr
    · exact extractSegsEntry_chains k v pre hv hk hpre r hr
    · exact extractSegs_chains rest pre hrest hpre r hr

theorem extractSegsEntry_chains : ∀ (k : List Char) (v : JsonVal) (pre : List (List Char)),
    slashFreeVal v = true → k.contains '/' = false → (∀ p ∈ pre, '/' ∉ p) →
    ∀ r ∈ extractSegsEntry k v pre, r.1 ≠ [] ∧ ∀ p ∈ r.1, '/' ∉ p
  | k, .str s, pre, _, hk, hpre => by
    intro r hr
    rw [show extractSegsEntry k (.str s) pre
        = if s.isEmpty then [] else [(pre ++ [k], JsonVal.str s)] from rfl] at hr
    by_cases hs : s.isEmpty
    · rw [if_pos hs] at hr
      cases hr
    · rw [if_neg hs, List.mem_singleton] at hr
      subst hr
      exact chains_append_key hpre hk
  | k, .arr xs, pre, _, hk, hpre => by
    intro r hr
    rw [show extractSegsEntry k (.arr xs) pre
        = if xs.isEmpty then [] else [(pre ++ [k], JsonVal.arr xs)] from rfl] at hr
    by_cases hs : xs.isEmpty
    · rw [if_pos hs] at hr
      cases hr
    · rw [if_neg hs, List.mem_singleton] at hr
      subst hr
      exact chains_append_key hpre hk
  | k, .obj fs, pre, hv, hk, hpre => by
    intro r hr
    rw [show extractSegsEntry k (.obj fs) pre
        = if fs.isEmpty then [] else extractSegs fs (pre ++ [k]) from rfl] at hr
    by_cases hs : fs.isEmpty
    · rw [if_pos hs] at hr
      cases hr
    · rw [if_neg hs] at hr
      exact extractSegs_chains fs (pre ++ [k])
        (by rw [show slashFreeVal (.obj fs) = slashFreeFields fs from rfl] at hv; exact hv)
        (chains_append_key hpre hk).2 r hr
  | k, .numLit s, pre, _, _, _ => by intro r hr; cases hr
  | k, .boolean b, pre, _, _, _ => by intro r hr; cases hr
  | k, .null, pre, _, _, _ => by intro r hr; cases hr
end

mutual
theorem extractSegs_ne_nil : ∀ (fields : Obj) (pre : List (List Char)),
    goodFields fields = true → fields ≠ [] → extractSegs fields pre ≠ []
  | [], _, _, hne => absurd rfl hne
  | (k, v) :: rest, pre, hgood, _ => by
    rw [goodFields, Bool.and_eq_true, Bool.and_eq_true] at hgood
    rw [show extractSegs ((k, v) :: rest) pre
        = extractSegsEntry k v pre ++ extractSegs rest pre from rfl]
    intro happ
    exact extractSegsEntry_ne_nil k v pre hgood.1.1 (List.append_eq_nil.1 happ).1

theorem extractSegsEntry_ne_nil : ∀ (k : List Char) (v : JsonVal) (pre : List (List Char)),
    goodVal v = true → extractSegsEntry k v pre ≠ []
  | k, .str s, pre, hv => by
    rw [show goodVal (.str s) = !s.isEmpty from rfl, Bool.not_eq_true'] at hv
    rw [show extractSegsEntry k (.str s) pre
        = if s.isEmpty then [] else [(pre ++ [k], JsonVal.str s)] from rfl,
      if_neg (by simp [hv])]
    simp
  | k, .arr xs, pre, hv => by
    rw [show goodVal (.arr xs) = (!xs.isEmpty && arrAllStr xs) from rfl,
      Bool.and_eq_true, Bool.not_eq_true'] at hv
    rw [show extractSegsEntry k (.arr xs) pre
        = if xs.isEmpty then [] else [(pre ++ [k], JsonVal.arr xs)] from rfl,
      if_neg (by simp [hv.1])]
    simp
  | k, .obj fs, pre, hv => by
    rw [show goodVal (.obj fs) = (!fs.isEmpty && goodFields fs) from rfl,
      Bool.and_eq_true, Bool.not_eq_true'] at hv
    rw [show extractSegsEntry k (.obj fs) pre
        = if fs.isEmpty then [] else extractSegs fs (pre ++ [k]) from rfl,
      if_neg (by simp [hv.1])]
    exact extractSegs_ne_nil fs (pre ++ [k]) hv.2 (by
      intro h0
      rw [h0] at hv
      cases hv.1)
  | k, .numLit s, pre, hv => by
    rw [show goodVal (.numLit s) = false from rfl] at hv
    cases hv
  | k, .boolean b, pre, hv => by
    rw [show goodVal (.boolean b) = false from rfl] at hv
    cases hv
  | k, .null, pre, hv => by
    rw [show goodVal JsonVal.null = false from rfl] at hv
    cases hv
end

mutual
theorem extractSegs_textOk : ∀ (fields : Obj) (pre : List (List Char)),
    cleanTextsFields fields = true →
    ∀ r ∈ extractSegs fields pre, encTextOk r.2 = true
  | [], _, _ => by intro r hr; cases hr
  | (k, v) :: rest, pre, hclean => by
    rw [cleanTextsFields, Bool.and_eq_true] at hclean
    intro r hr
    rw [show extractSegs ((k, v) :: rest) pre
        = extractSegsEntry k v pre ++ extractSegs rest pre from rfl,
      List.mem_append] at hr
    rcases hr with hr | hr
    · exact extractSegsEntry_textOk k v pre hclean.1 r hr
    · exact extractSegs_textOk rest pre hclean.2 r hr

theorem extractSegsEntry_textOk : ∀ (k : List Char) (v : JsonVal) (pre : List (List Char)),
    cleanTextsVal v = true → ∀ r ∈ extractSegsEntry k v pre, encTextOk r.2 = true
  | k, .str s, pre, hclean => by
    intro r hr
    rw [show extractSegsEntry k (.str s) pre
        = if s.isEmpty then [] else [(pre ++ [k], JsonVal.str s)] from rfl] at hr
    by_cases hs : s.isEmpty
    · rw [if_pos hs] at hr
      cases hr
    · rw [if_neg hs, List.mem_singleton] at hr
      subst hr
      exact hclean
  | k, .arr xs, pre, hclean => by
    intro r hr
    rw [show extractSegsEntry k (.arr xs) pre
        = if xs.isEmpty then [] else [(pre ++ [k], JsonVal.arr xs)] from rfl] at hr
    by_cases hs : xs.isEmpty
    · rw [if_pos hs] at hr
      cases hr
    · rw [if_neg hs, List.mem_singleton] at hr
      subst hr
      exact hclean
  | k, .obj fs, pre, hclean => by
    intro r hr
    rw [show extractSegsEntry k (.obj fs) pre
        = if fs.isEmpty then [] else extractSegs fs (pre ++ [k]) from rfl] at hr
    by_cases hs : fs.isEmpty
    · rw [if_pos hs] at hr
      cases hr
    · rw [if_neg hs] at hr
      exact extractSegs_textOk fs (pre ++ [k]) hclean r hr
  | k, .numLit s, pre, _ => by intro r hr; cases hr
  | k, .boolean b, pre, _ => by intro r hr; cases hr
  | k, .null, pre, _ => by intro r hr; cases hr
end

theorem resolveMessages_eq_segs (data : Obj) (hkeys : neKeysFields data = true) :
    resolveMessages data = (extractSegs data []).map (fun r => (joinSegs r.1, r.2)) :=
  resolvePaths_eq_segs data [] (Or.inl rfl) hkeys

theorem rebuildRecs_resolveMessages (data : Obj) (hgood : goodFields data = true)
    (hslash : slashFreeFields data = true) (hkeys : neKeysFields data = true) :
    rebuildRecs (resolveMessages data) [] = data := by
  rw [resolveMessages_eq_segs data hkeys,
    rebuildRecs_map_segs _ [] (extractSegs_chains data [] hslash (by intro p hp; cases hp)),
    rebuildSegsFold_extractSegs data [] [] [] hgood (AtC.nil []) (fun _ => AtS.nil [])
      (fun kv _ => rfl)]
  rfl

theorem roundTrip_ok (data : Obj) (hgood : goodDoc data = true)
    (hslash : slashFreeFields data = true) (hclean : cleanTextsFields data = true)
    (hkeys : neKeysFields data = true) :
    identityRoundTrip data = .ok data := by
  rw [goodDoc, Bool.and_eq_true, Bool.not_eq_true'] at hgood
  obtain ⟨hne0, hgf⟩ := hgood
  have hdne : data ≠ [] := by
    intro h0
    rw [h0] at hne0
    cases hne0
  have hok : ∀ m ∈ resolveMessages data, encTextOk m.2 = true := by
    rw [resolveMessages_eq_segs data hkeys]
    intro m hm
    obtain ⟨r, hr, rfl⟩ := List.mem_map.1 hm
    exact extractSegs_textOk data [] hclean r hr
  have hnemsgs : resolveMessages data ≠ [] := by
    rw [resolveMessages_eq_segs data hkeys]
    intro h0
    exact extractSegs_ne_nil data [] hgf hdne (List.map_eq_nil.1 h0)
  rw [identityRoundTrip, decodeRebuild_encodeBatch _ hok hnemsgs,
    rebuildRecs_resolveMessages data hgf hslash hkeys]

/-! ## Malformed tokens abort decoding -/

/-- A batch token is malformed when it lacks `==`, its index part is not a
canonical array index, or its JSON part fails to parse (a missing JSON part
counts: `JSON.parse(undefined)` throws). -/
def malformedTok (tok : List Char) : Bool :=
  !containsSeq (chars "==") tok
    || (jsArrayIndex? ((jsSplit (chars "==") tok).headD [])).isNone
    || (parseValueOpt (jsSplit (chars "==") tok)[1]?).isNone

theorem jsSplit_single_of_no_sep (tok : List Char)
    (h : containsSeq (chars "==") tok = false) :
    jsSplit (chars "==") tok = [tok] := by
  rw [containsSeq] at h
  cases hfs : findSep (chars "==") tok with
  | none => exact jsSplit_eq_single _ _ hfs
  | some pp =>
    rw [hfs] at h
    cases h

theorem decodeStep_error_of_malformed (messages : List (List Char × JsonVal)) (acc : Obj)
    (tok : List Char) (h : malformedTok tok = true) :
    ∃ e, decodeStep messages acc tok = .error e := by
  rw [malformedTok, Bool.or_eq_true, Bool.or_eq_true] at h
  cases hidx : jsArrayIndex? ((jsSplit (chars "==") tok).headD []) with
  | none =>
    refine ⟨.typeLookup, ?_⟩
    rw [decodeStep]
    rw [show ('=' :: ['='] : List Char) = chars "==" from rfl, hidx]
  | some i =>
    have hparse : parseValueOpt (jsSplit (chars "==") tok)[1]? = none := by
      rcases h with (h | h) | h
      · rw [Bool.not_eq_true'] at h
        rw [jsSplit_single_of_no_sep tok h]
        rfl
      · rw [hidx] at h
        cases h
      · rw [Option.isNone_iff_eq_none] at h
        exact h
    cases hlook : messages[i]? with
    | none =>
      refine ⟨.typeLookup, ?_⟩
      simp only [decodeStep, show ('=' :: ['='] : List Char) = chars "==" from rfl,
        hidx, hlook]
    | some msg =>
      refine ⟨.jsonSyntax, ?_⟩
      simp only [decodeStep, show ('=' :: ['='] : List Char) = chars "==" from rfl,
        hidx, hlook, hparse]

theorem decodeFold_error_of_mem : ∀ (toks : List (List Char))
    (messages : List (List Char × JsonVal)) (acc : Obj),
    (∃ t ∈ toks, malformedTok t = true) →
    ∃ e, decodeFold messages acc toks = .error e
  | [], _, _, h => by
    obtain ⟨t, ht, _⟩ := h
    cases ht
  | t :: ts, messages, acc, h => by
    cases hstep : decodeStep messages acc t with
    | error e =>
      refine ⟨e, ?_⟩
      rw [decodeFold, hstep]
    | ok acc2 =>
      obtain ⟨t', ht', hmal⟩ := h
      rcases List.mem_cons.1 ht' with rfl | hmem
      · obtain ⟨e, he⟩ := decodeStep_error_of_malformed messages acc t' hmal
        rw [hstep] at he
        cases he
      · obtain ⟨e, he⟩ := decodeFold_error_of_mem ts messages acc2 ⟨t', hmem, hmal⟩
        refine ⟨e, ?_⟩
        simp only [decodeFold, hstep, he]

theorem decodeRebuild_error_of_malformed (messages : List (List Char × JsonVal))
    (batch : List Char) (h : ∃ t ∈ jsSplit (chars "//") batch, malformedTok t = true) :
    ∃ e, decodeRebuild messages batch = .error e :=
  decodeFold_error_of_mem (jsSplit (chars "//") batch) messages [] h

/-! ## Out-of-range indices abort the rebuild -/

theorem decodeStep_error_of_out_of_range (messages : List (List Char × JsonVal))
    (acc : Obj) (tok : List Char) (n : Nat)
    (hidx : jsArrayIndex? ((jsSplit (chars "==") tok).headD []) = some n)
    (hn : messages.length ≤ n) :
    decodeStep messages acc tok = .error .typeLookup := by
  simp only [decodeStep, show ('=' :: ['='] : List Char) = chars "==" from rfl, hidx,
    List.getElem?_eq_none hn]

theorem decodeFold_error_of_oor : ∀ (toks : List (List Char))
    (messages : List (List Char × JsonVal)) (acc : Obj),
    (∃ t ∈ toks, ∃ n, jsArrayIndex? ((jsSplit (chars "==") t).headD []) = some n ∧
      messages.length ≤ n) →
    ∃ e, decodeFold messages acc toks = .error e
  | [], _, _, h => by
    obtain ⟨t, ht, _⟩ := h
    cases ht
  | t :: ts, messages, acc, h => by
    cases hstep : decodeStep messages acc t with
    | error e =>
      refine ⟨e, ?_⟩
      rw [decodeFold, hstep]
    | ok acc2 =>
      obtain ⟨t', ht', n, hn1, hn2⟩ := h
      rcases List.mem_cons.1 ht' with rfl | hmem
      · have := decodeStep_error_of_out_of_range messages acc t' n hn1 hn2
        rw [hstep] at this
        cases this
      · obtain ⟨e, he⟩ := decodeFold_error_of_oor ts messages acc2 ⟨t', hmem, n, hn1, hn2⟩
        refine ⟨e, ?_⟩
        simp only [decodeFold, hstep, he]

theorem decodeFold_ok_indices : ∀ (toks : List (List Char))
    (messages : List (List Char × JsonVal)) (acc out : Obj),
    decodeFold messages acc toks = .ok out →
    ∀ t ∈ toks, ∃ n r, jsArrayIndex? ((jsSplit (chars "==") t).headD []) = some n ∧
      messages[n]? = some r
  | [], _, _, _, _ => by intro t ht; cases ht
  | t :: ts, messages, acc, out, hok => by
    intro t' ht'
    cases hstep : decodeStep messages acc t with
    | error e =>
      rw [decodeFold, hstep] at hok
      cases hok
    | ok acc2 =>
      rw [decodeFold, hstep] at hok
      rcases List.mem_cons.1 ht' with rfl | hmem
      · rw [decodeStep, show ('=' :: ['='] : List Char) = chars "==" from rfl] at hstep
        cases hidx : jsArrayIndex? ((jsSplit (chars "==") t').headD []) with
        | none =>
          rw [hidx] at hstep
          cases hstep
        | some n =>
          rw [hidx] at hstep
          cases hlook : messages[n]? with
          | none =>
            simp only [hlook] at hstep
            cases hstep
          | some r => exact ⟨n, r, rfl, hlook⟩
      · exact decodeFold_ok_indices ts messages acc2 out hok t' hmem

/-! ## Declarative characterization of extraction -/

/-- The spec's description of a leaf: a key chain through non-empty nested
objects ending at a key whose value is a non-empty string or non-empty
array. -/
inductive LeafAt : Obj → List (List Char) → JsonVal → Prop where
  | strLeaf {fields : Obj} {k s : List Char} :
      (k, JsonVal.str s) ∈ fields → s ≠ [] → LeafAt fields [k] (.str s)
  | arrLeaf {fields : Obj} {k : List Char} {xs : List JsonVal} :
      (k, JsonVal.arr xs) ∈ fields → xs ≠ [] → LeafAt fields [k] (.arr xs)
  | nest {fields : Obj} {k : List Char} {fs : Obj} {chain : List (List Char)} {v : JsonVal} :
      (k, JsonVal.obj fs) ∈ fields → fs ≠ [] → LeafAt fs chain v →
      LeafAt fields (k :: chain) v

theorem isEmpty_false_of_ne_nil {α : Type} {l : List α} (h : l ≠ []) :
    l.isEmpty = false := by
  cases l with
  | nil => exact absurd rfl h
  | cons a as => rfl

theorem ne_nil_of_isEmpty_false {α : Type} {l : List α} (h : ¬ l.isEmpty = true) :
    l ≠ [] := by
  intro h0
  subst h0
  exact h rfl

theorem LeafAt_cons {rest : Obj} {loc : List (List Char)} {v : JsonVal}
    (kv : List Char × JsonVal) (h : LeafAt rest loc v) : LeafAt (kv :: rest) loc v := by
  cases h with
  | strLeaf hm hs => exact .strLeaf (List.mem_cons_of_mem _ hm) hs
  | arrLeaf hm hs => exact .arrLeaf (List.mem_cons_of_mem _ hm) hs
  | nest hm hne hin => exact .nest (List.mem_cons_of_mem _ hm) hne hin

theorem extractSegsEntry_subset : ∀ (fields : Obj) (k : List Char) (v : JsonVal)
    (pre : List (List Char)), (k, v) ∈ fields →
    ∀ r ∈ extractSegsEntry k v pre, r ∈ extractSegs fields pre
  | [], _, _, _, hm => by cases hm
  | (k0, v0) :: rest, k, v, pre, hm => by
    intro r hr
    rw [show extractSegs ((k0, v0) :: rest) pre
        = extractSegsEntry k0 v0 pre ++ extractSegs rest pre from rfl, List.mem_append]
    rcases List.mem_cons.1 hm with heq | hm2
    · have h1 : k = k0 := congrArg Prod.fst heq
      have h2 : v = v0 := congrArg Prod.snd heq
      subst h1
      subst h2
      exact Or.inl hr
    · exact Or.inr (extractSegsEntry_subset rest k v pre hm2 r hr)

mutual
theorem extractSegs_sound : ∀ (fields : Obj) (pre : List (List Char))
    (r : List (List Char) × JsonVal), r ∈ extractSegs fields pre →
    ∃ loc, r.1 = pre ++ loc ∧ LeafAt fields loc r.2
  | [], _, r => by intro hr; cases hr
  | (k, v) :: rest, pre, r => by
    intro hr
    rw [show extractSegs ((k, v) :: rest) pre
        = extractSegsEntry k v pre ++ extractSegs rest pre from rfl,
      List.mem_append] at hr
    rcases hr with hr | hr
    · obtain ⟨loc, h1, h2⟩ := extractSegsEntry_sound k v pre r hr
      exact ⟨loc, h1, h2 ((k, v) :: rest) (by simp)⟩
    · obtain ⟨loc, h1, h2⟩ := extractSegs_sound rest pre r hr
      exact ⟨loc, h1, LeafAt_cons (k, v) h2⟩

theorem extractSegsEntry_sound : ∀ (k : List Char) (v : JsonVal) (pre : List (List Char))
    (r : List (List Char) × JsonVal), r ∈ extractSegsEntry k v pre →
    ∃ loc, r.1 = pre ++ loc ∧ ∀ fields, (k, v) ∈ fields → LeafAt fields loc r.2
  | k, .str s, pre, r => by
    intro hr
    rw [show extractSegsEntry k (.str s) pre
        = if s.isEmpty then [] else [(pre ++ [k], JsonVal.str s)] from rfl] at hr
    by_cases hs : s.isEmpty
    · rw [if_pos hs] at hr
      cases hr
    · rw [if_neg hs, List.mem_singleton] at hr
      subst hr
      exact ⟨[k], rfl, fun fields hm => .strLeaf hm (ne_nil_of_isEmpty_false hs)⟩
  | k, .arr xs, pre, r => by
    intro hr
    rw [show extractSegsEntry k (.arr xs) pre
        = if xs.isEmpty then [] else [(pre ++ [k], JsonVal.arr xs)] from rfl] at hr
    by_cases hs : xs.isEmpty
    · rw [if_pos hs] at hr
      cases hr
    · rw [if_neg hs, List.mem_singleton] at hr
      subst hr
      exact ⟨[k], rfl, fun fields hm => .arrLeaf hm (ne_nil_of_isEmpty_false hs)⟩
  | k, .obj fs, pre, r => by
    intro hr
    rw [show extractSegsEntry k (.obj fs) pre
        = if fs.isEmpty then [] else extractSegs fs (pre ++ [k]) from rfl] at hr
    by_cases hs : fs.isEmpty
    · rw [if_pos hs] at hr
      cases hr
    · rw [if_neg hs] at hr
      obtain ⟨loc, h1, h2⟩ := extractSegs_sound fs (pre ++ [k]) r hr
      refine ⟨k :: loc, ?_, fun fields hm =>
        .nest hm (ne_nil_of_isEmpty_false hs) h2⟩
      rw [h1]
      simp
  | k, .numLit s, pre, r => by intro hr; cases hr
  | k, .boolean b, pre, r => by intro hr; cases hr
  | k, .null, pre, r => by intro hr; cases hr
end

theorem extractSegs_complete {fields : Obj} {loc : List (List Char)} {v : JsonVal}
    (h : LeafAt fields loc v) : ∀ pre, (pre ++ loc, v) ∈ extractSegs fields pre := by
  induction h with
  | @strLeaf flds k s hm hs =>
    intro pre
    refine extractSegsEntry_subset _ _ _ pre hm _ ?_
    rw [show extractSegsEntry k (.str s) pre
        = if s.isEmpty then [] else [(pre ++ [k], JsonVal.str s)] from rfl,
      if_neg (by rw [isEmpty_false_of_ne_nil hs]; simp)]
    simp
  | @arrLeaf flds k xs hm hs =>
    intro pre
    refine extractSegsEntry_subset _ _ _ pre hm _ ?_
    rw [show extractSegsEntry k (.arr xs) pre
        = if xs.isEmpty then [] else [(pre ++ [k], JsonVal.arr xs)] from rfl,
      if_neg (by rw [isEmpty_false_of_ne_nil hs]; simp)]
    simp
  | @nest flds k fs chain w hm hne hin ih =>
    intro pre
    refine extractSegsEntry_subset _ _ _ pre hm _ ?_
    rw [show extractSegsEntry k (.obj fs) pre
        = if fs.isEmpty then [] else extractSegs fs (pre ++ [k]) from rfl,
      if_neg (by rw [isEmpty_false_of_ne_nil hne]; simp)]
    have := ih (pre ++ [k])
    simpa using this

theorem resolveMessages_mem_iff (fields : Obj) (path : List Char) (text : JsonVal)
    (hkeys : neKeysFields fields = true) :
    (path, text) ∈ resolveMessages fields ↔
      ∃ chain, path = joinSegs chain ∧ LeafAt fields chain text := by
  rw [resolveMessages_eq_segs fields hkeys]
  constructor
  · intro hm
    obtain ⟨r, hr, heq⟩ := List.mem_map.1 hm
    obtain ⟨c0, t0⟩ := r
    have hp : joinSegs c0 = path := congrArg Prod.fst heq
    have ht : t0 = text := congrArg Prod.snd heq
    obtain ⟨loc, h1, h2⟩ := extractSegs_sound fields [] (c0, t0) hr
    rw [List.nil_append] at h1
    have h1' : c0 = loc := h1
    subst ht
    refine ⟨c0, hp.symm, ?_⟩
    rw [h1']
    exact h2
  · rintro ⟨chain, rfl, hleaf⟩
    have := extractSegs_complete hleaf []
    rw [List.nil_append] at this
    exact List.mem_map.2 ⟨(chain, text), this, rfl⟩

/-! ## Output file naming facts -/

theorem takeWhile_eq_self_of_not_mem (c : Char) : ∀ s : List Char, c ∉ s →
    s.takeWhile (fun x => x != c) = s
  | [], _ => rfl
  | a :: as, h => by
    rw [List.takeWhile_cons]
    have hac : (a != c) = true := by
      simp only [bne_iff_ne, ne_eq]
      intro h0
      exact h (by simp [h0])
    rw [hac]
    simp only [if_true]
    rw [takeWhile_eq_self_of_not_mem c as (fun hm => h (List.mem_cons_of_mem _ hm))]

theorem findSep_single_pre (c : Char) : ∀ (s pre post : List Char),
    findSep [c] s = some (pre, post) → pre = s.takeWhile (fun x => x != c)
  | [], pre, post => by
    intro h
    cases h
  | a :: cs, pre, post => by
    intro h
    rw [findSep] at h
    by_cases hp : hasPrefixSeq [c] (a :: cs) = true
    · rw [if_pos hp] at h
      have hca : c = a := by
        have := (hasPrefixSeq_iff [c] (a :: cs)).1 hp
        rw [List.cons_prefix_cons] at this
        exact this.1
      have hpre : pre = [] := by cases h; rfl
      subst hpre
      rw [List.takeWhile_cons]
      have : (a != c) = false := by
        simp [bne_iff_ne, hca.symm]
      rw [this]
      simp
    · rw [if_neg hp] at h
      have hca : ¬ c = a := by
        intro h0
        exact hp ((hasPrefixSeq_iff [c] (a :: cs)).2
          (List.cons_prefix_cons.2 ⟨h0, List.nil_prefix⟩))
      cases hrec : findSep [c] cs with
      | none =>
        rw [hrec] at h
        cases h
      | some pp =>
        rw [hrec] at h
        obtain ⟨p1, p2⟩ := pp
        have hpre : pre = a :: p1 := by cases h; rfl
        subst hpre
        rw [List.takeWhile_cons]
        have : (a != c) = true := by
          simp [bne_iff_ne]
          intro h0
          exact hca h0.symm
        rw [this]
        simp only [if_true]
        rw [← findSep_single_pre c cs p1 p2 hrec]

theorem jsSplit_single_headD (c : Char) (s : List Char) :
    (jsSplit [c] s).headD [] = s.takeWhile (fun x => x != c) := by
  cases hfs : findSep [c] s with
  | none =>
    rw [jsSplit_eq_single [c] s hfs]
    have : c ∉ s := fun hm =>
      ((findSep_none_iff [c] (by simp) s).1 hfs) ((singleton_infix_iff c s).2 hm)
    rw [show ([s] : List (List Char)).headD [] = s from rfl,
      takeWhile_eq_self_of_not_mem c s this]
  | some pp =>
    obtain ⟨pre, post⟩ := pp
    rw [jsSplit_eq_cons [c] (by simp) s pre post hfs]
    rw [show (pre :: jsSplit [c] post).headD [] = pre from rfl]
    exact findSep_single_pre c s pre post hfs

theorem pathTranslatedJson_basename (dirs : List (List Char)) (base : List Char)
    (hdirs : ∀ d ∈ dirs, '/' ∉ d) (hbase : '/' ∉ base) :
    pathTranslatedJson (joinSegs (dirs ++ [base]))
      = base.takeWhile (fun x => x != '.') ++ chars "-translated.json" := by
  rw [pathTranslatedJson, show joinSegs (dirs ++ [base])
      = joinSep ['/'] (dirs ++ [base]) from rfl,
    jsSplit_single_join (dirs ++ [base]) '/' (by simp) (by
      intro p hp
      rw [List.mem_append, List.mem_singleton] at hp
      rcases hp with hp | rfl
      · exact hdirs p hp
      · exact hbase),
    List.getLastD_concat, jsSplit_single_headD]

/-! ## Token splitting facts (record separator) -/

theorem tokenSplit_two (p mid post : List Char)
    (h1 : ¬ ['=', '='] <:+: p) (h2 : p.getLast? ≠ some '=')
    (h3 : ¬ ['=', '='] <:+: mid) (h4 : mid.getLast? ≠ some '=') :
    jsSplit (chars "==") (p ++ chars "==" ++ mid ++ chars "==" ++ post)
      = p :: mid :: jsSplit (chars "==") post := by
  rw [chars_eqeq]
  have e1 : p ++ ['=', '='] ++ mid ++ ['=', '='] ++ post
      = p ++ ['=', '='] ++ (mid ++ ['=', '='] ++ post) := by
    simp [List.append_assoc]
  rw [e1, jsSplit_eq_cons ['=', '='] (by simp) _ _ _
      (findSep_cc '=' (mid ++ ['=', '='] ++ post) p h1 h2),
    jsSplit_eq_cons ['=', '='] (by simp) _ _ _ (findSep_cc '=' post mid h3 h4)]

theorem tokenSplit_one (p mid : List Char)
    (h1 : ¬ ['=', '='] <:+: p) (h2 : p.getLast? ≠ some '=')
    (h3 : ¬ ['=', '='] <:+: mid) :
    jsSplit (chars "==") (p ++ chars "==" ++ mid) = [p, mid] := by
  rw [chars_eqeq, jsSplit_eq_cons ['=', '='] (by simp) _ _ _ (findSep_cc '=' mid p h1 h2),
    jsSplit_eq_single ['=', '='] mid ((findSep_none_iff ['=', '='] (by simp) mid).2 h3)]

/-! # The claims -/

deriving instance DecidableEq for Db

/-- Claim C1 (corrected): the identity round trip reproduces a document
exactly when, beyond the claimed hypothesis (every leaf a non-empty string
or non-empty array of strings), the document is non-empty, no key contains
the path separator `/`, no key is the empty string, and no leaf text
contains `//` or `==`.  The JSON string-literal encoding does not escape
`/` or `=`, so separators inside a leaf text do reach the batch string;
and an empty key makes the falsy accumulated-path check record a bare
sub-key path. -/
theorem roundTrip_identity_clean (data : Obj) (hgood : goodDoc data = true)
    (hslash : slashFreeFields data = true) (hclean : cleanTextsFields data = true)
    (hkeys : neKeysFields data = true) :
    identityRoundTrip data = .ok data :=
  roundTrip_ok data hgood hslash hclean hkeys

/-- Witness for claim C1: a concrete two-level document with a string leaf
and a string-array leaf satisfies the hypotheses, and the round trip
reproduces it. -/
theorem roundTrip_identity_clean_witness :
    goodDoc [(chars "greeting", JsonVal.str (chars "hello")),
      (chars "menu", JsonVal.obj [(chars "items",
        JsonVal.arr [JsonVal.str (chars "tea"), JsonVal.str (chars "cake")])])] = true
    ∧ neKeysFields [(chars "greeting", JsonVal.str (chars "hello")),
      (chars "menu", JsonVal.obj [(chars "items",
        JsonVal.arr [JsonVal.str (chars "tea"), JsonVal.str (chars "cake")])])] = true
    ∧ identityRoundTrip [(chars "greeting", JsonVal.str (chars "hello")),
        (chars "menu", JsonVal.obj [(chars "items",
          JsonVal.arr [JsonVal.str (chars "tea"), JsonVal.str (chars "cake")])])]
      = .ok [(chars "greeting", JsonVal.str (chars "hello")),
        (chars "menu", JsonVal.obj [(chars "items",
          JsonVal.arr [JsonVal.str (chars "tea"), JsonVal.str (chars "cake")])])] :=
  ⟨by decide, by decide,
    roundTrip_identity_clean _ (by decide) (by decide) (by decide) (by decide)⟩

/-- Counterexample to claim C1 as stated: the document with the single
leaf text "a//b" has only non-empty string leaves, yet the identity round
trip fails with a JSON syntax error instead of reproducing it — the
batch separator inside the leaf text is confused with the delimiter. -/
theorem roundTrip_separator_counterexample :
    goodDoc [(chars "k", JsonVal.str (chars "a//b"))] = true
    ∧ identityRoundTrip [(chars "k", JsonVal.str (chars "a//b"))]
        = .error DecErr.jsonSyntax
    ∧ identityRoundTrip [(chars "k", JsonVal.str (chars "a//b"))]
        ≠ .ok [(chars "k", JsonVal.str (chars "a//b"))] := by
  decide

/-- Claim C2 (corrected): a token splits as [index part, JSON part] — and
the decoder then parses the index part as an array index into the original
records and the JSON part as JSON — when the JSON part contains no further
"==": split("==") cuts at every occurrence, not only the first, and the
destructuring keeps only the first two parts. -/
theorem tokenDecode_first_sep (p mid : List Char)
    (h1 : ¬ chars "==" <:+: p) (h2 : p.getLast? ≠ some '=')
    (h3 : ¬ chars "==" <:+: mid)
    (messages : List (List Char × JsonVal)) (acc : Obj) :
    jsSplit (chars "==") (p ++ chars "==" ++ mid) = [p, mid]
    ∧ decodeStep messages acc (p ++ chars "==" ++ mid)
      = (match jsArrayIndex? p with
         | none => .error .typeLookup
         | some i =>
           match messages[i]? with
           | none => .error .typeLookup
           | some msg =>
             match jsonParse mid with
             | none => .error .jsonSyntax
             | some v => .ok (omSet acc msg.1 v)) := by
  have hsplit := tokenSplit_one p mid h1 h2 h3
  refine ⟨hsplit, ?_⟩
  simp only [decodeStep, show ('=' :: ['='] : List Char) = chars "==" from rfl, hsplit]
  rfl

/-- Witness for claim C2: the token 0=="hi" decodes against a one-record
original by storing the parsed string "hi" at that record's path. -/
theorem tokenDecode_first_sep_witness :
    (¬ chars "==" <:+: chars "0") ∧ (chars "0").getLast? ≠ some '='
    ∧ (¬ chars "==" <:+: chars "\"hi\"")
    ∧ jsSplit (chars "==") (chars "0" ++ chars "==" ++ chars "\"hi\"")
        = [chars "0", chars "\"hi\""]
    ∧ decodeStep [(chars "k", JsonVal.str (chars "x"))] []
        (chars "0" ++ chars "==" ++ chars "\"hi\"")
      = .ok [(chars "k", JsonVal.str (chars "hi"))] :=
  ⟨by decide, by decide, by decide,
    (tokenDecode_first_sep (chars "0") (chars "\"hi\"") (by decide) (by decide)
      (by decide) [(chars "k", JsonVal.str (chars "x"))] []).1,
    ((tokenDecode_first_sep (chars "0") (chars "\"hi\"") (by decide) (by decide)
      (by decide) [(chars "k", JsonVal.str (chars "x"))] []).2).trans (by decide)⟩

/-- Counterexample to claim C2 as stated: on the token 0=="a==b" a split at
the first "==" would give the valid JSON text "a==b", but the code's
split("==") cuts at every occurrence, the kept JSON part is the prefix
"a (unbalanced quote), and decoding fails with a JSON syntax error. -/
theorem tokenDecode_first_sep_counterexample :
    findSep (chars "==") (chars "0==\"a==b\"")
      = some (chars "0", chars "\"a==b\"")
    ∧ (jsSplit (chars "==") (chars "0==\"a==b\""))[1]? = some (chars "\"a")
    ∧ decodeStep [(chars "k", JsonVal.str (chars "x"))] [] (chars "0==\"a==b\"")
        = .error DecErr.jsonSyntax := by
  decide

/-- Claim C3 (confirmed): a batch string with at least one malformed token
(no "==", a non-index index part, or an unparsable JSON part) makes the
whole decode-and-rebuild step of the json file pipeline fail, no output
file is written for it, and in general a write happens only for a fully
successful pipeline result. -/
theorem decode_all_or_nothing (path : List Char) (data : Obj) (batch : List Char)
    (h : ∃ t ∈ jsSplit (chars "//") batch, malformedTok t = true) :
    (∃ e, translateFileJson path data batch = .error e)
    ∧ writesOf (translateFileJson path data batch) = []
    ∧ ∀ res : Except DecErr (List Char × Obj), writesOf res ≠ [] → ∃ w, res = .ok w := by
  obtain ⟨e, he⟩ := decodeRebuild_error_of_malformed (resolveMessages data) batch h
  refine ⟨⟨e, ?_⟩, ?_, ?_⟩
  · rw [translateFileJson, he]
  · rw [translateFileJson, he]
    rfl
  · intro res hres
    cases res with
    | ok w => exact ⟨w, rfl⟩
    | error e2 => exact absurd rfl hres

/-- Witness for claim C3: the batch "oops" has a token without "==", so the
pipeline on a concrete document fails and writes nothing. -/
theorem decode_all_or_nothing_witness :
    (∃ t ∈ jsSplit (chars "//") (chars "oops"), malformedTok t = true)
    ∧ (∃ e, translateFileJson (chars "a.json")
        [(chars "k", JsonVal.str (chars "v"))] (chars "oops") = .error e)
    ∧ writesOf (translateFileJson (chars "a.json")
        [(chars "k", JsonVal.str (chars "v"))] (chars "oops")) = [] :=
  ⟨by decide,
    (decode_all_or_nothing (chars "a.json") [(chars "k", JsonVal.str (chars "v"))]
      (chars "oops") (by decide)).1,
    (decode_all_or_nothing (chars "a.json") [(chars "k", JsonVal.str (chars "v"))]
      (chars "oops") (by decide)).2.1⟩

/-- Claim C4 (corrected): for a path made of slash-free directory segments
and a slash-free base name, the output name is the base name truncated at
its FIRST dot, plus "-translated.json" — not the base name plus
"-translated" plus the original extension — and it carries no directory
prefix, so it is not in general a sibling of the input. -/
theorem outputName_from_basename (dirs : List (List Char)) (base : List Char)
    (hdirs : ∀ d ∈ dirs, '/' ∉ d) (hbase : '/' ∉ base) :
    pathTranslatedJson (joinSegs (dirs ++ [base]))
      = base.takeWhile (fun x => x != '.') ++ chars "-translated.json" :=
  pathTranslatedJson_basename dirs base hdirs hbase

/-- Witness for claim C4: the input path dir/a.b.json yields the output
name built from the stem a of its base name. -/
theorem outputName_from_basename_witness :
    (∀ d ∈ [chars "dir"], '/' ∉ d) ∧ '/' ∉ chars "a.b.json"
    ∧ pathTranslatedJson (joinSegs ([chars "dir"] ++ [chars "a.b.json"]))
      = (chars "a.b.json").takeWhile (fun x => x != '.') ++ chars "-translated.json" :=
  ⟨by decide, by decide,
    outputName_from_basename [chars "dir"] (chars "a.b.json") (by decide) (by decide)⟩

/-- Counterexample to claim C4 as stated: the input dir/a.b.json produces
a-translated.json — not the claimed a.b-translated.json, and not the
sibling dir/a.b-translated.json. -/
theorem outputName_counterexample :
    pathTranslatedJson (chars "dir/a.b.json") = chars "a-translated.json"
    ∧ chars "a-translated.json" ≠ chars "a.b-translated.json"
    ∧ chars "a-translated.json" ≠ chars "dir/a.b-translated.json" := by
  decide

/-- Claim C5 (confirmed): whenever the default action reaches a backend
call, the target language it passes is resolved as: the explicit --to
option if present, else the stored default language if present, else the
literal "en". -/
theorem targetLanguage_resolution (db : Db) (message : List (List Char))
    (optTo : Option (List Char)) (flag : Bool) (db2 : Db) (txt tgt : List Char)
    (h : runAction db message optTo flag = (db2, .backendCall txt tgt)) :
    tgt = resolveTargetLanguage optTo db.defaultLanguage
    ∧ (∀ t, resolveTargetLanguage (some t) db.defaultLanguage = t)
    ∧ (∀ d, db.defaultLanguage = some d →
        resolveTargetLanguage none db.defaultLanguage = d)
    ∧ (db.defaultLanguage = none →
        resolveTargetLanguage none db.defaultLanguage = chars "en") := by
  refine ⟨?_, fun t => rfl, fun d hd => by rw [hd]; rfl, fun hn => by rw [hn]; rfl⟩
  rw [runAction] at h
  by_cases h1 : flag = true
  · rw [if_pos h1] at h
    exact RunOutput.noConfusion (congrArg Prod.snd h)
  · rw [if_neg h1] at h
    by_cases h2 : (message.isEmpty && optTo.isNone) = true
    · rw [if_pos h2] at h
      exact RunOutput.noConfusion (congrArg Prod.snd h)
    · rw [if_neg h2] at h
      by_cases h3 : (message.isEmpty && optTo.isSome) = true
      · rw [if_pos h3] at h
        exact RunOutput.noConfusion (congrArg Prod.snd h)
      · rw [if_neg h3] at h
        injection congrArg Prod.snd h with hA hB
        exact hB.symm

/-- Witness for claim C5: with no explicit flag and a stored default of
"fr" the backend is called with "fr"; with neither stored value nor flag
the resolution falls back to "en". -/
theorem targetLanguage_resolution_witness :
    runAction ⟨some (chars "fr"), [], []⟩ [chars "hi"] none false
      = (⟨some (chars "fr"), [], []⟩, .backendCall (chars "hi") (chars "fr"))
    ∧ chars "fr"
      = resolveTargetLanguage none (Db.mk (some (chars "fr")) [] []).defaultLanguage
    ∧ resolveTargetLanguage none none = chars "en" :=
  ⟨rfl, (targetLanguage_resolution ⟨some (chars "fr"), [], []⟩ [chars "hi"] none false
      ⟨some (chars "fr"), [], []⟩ (chars "hi") (chars "fr") rfl).1, rfl⟩

/-- Claim C6 (corrected): when no key of the document is the empty string,
extraction yields exactly the records (path, text) where path is the
slash-joined chain of keys through non-empty nested objects to a key whose
value text is a non-empty string or a non-empty array, kept as-is; empty
strings, empty arrays, numbers, booleans and null are skipped silently,
as the two concrete documents show: the first yields exactly one record,
for key c, and the second yields none.  Without the restriction the falsy
accumulated-path check can record a bare sub-key instead of the
slash-joined chain. -/
theorem extraction_characterization (fields : Obj) (path : List Char) (text : JsonVal)
    (hkeys : neKeysFields fields = true) :
    ((path, text) ∈ resolveMessages fields ↔
      ∃ chain, path = joinSegs chain ∧ LeafAt fields chain text)
    ∧ resolveMessages [(chars "a", JsonVal.str []), (chars "b", JsonVal.arr []),
        (chars "c", JsonVal.str (chars "hi"))]
      = [(chars "c", JsonVal.str (chars "hi"))]
    ∧ resolveMessages [(chars "n", JsonVal.numLit (chars "3")),
        (chars "t", JsonVal.boolean true), (chars "z", JsonVal.null)] = [] :=
  ⟨resolveMessages_mem_iff fields path text hkeys, by decide, by decide⟩

/-- Witness for claim C6: on a concrete nested document with non-empty
keys, the record (a/b, "hi") is characterized by the slash-joined key
chain to its leaf. -/
theorem extraction_characterization_witness :
    neKeysFields [(chars "a", JsonVal.obj [(chars "b", JsonVal.str (chars "hi"))])] = true
    ∧ (((chars "a/b", JsonVal.str (chars "hi")) ∈ resolveMessages
        [(chars "a", JsonVal.obj [(chars "b", JsonVal.str (chars "hi"))])]) ↔
      ∃ chain, chars "a/b" = joinSegs chain ∧
        LeafAt [(chars "a", JsonVal.obj [(chars "b", JsonVal.str (chars "hi"))])]
          chain (JsonVal.str (chars "hi"))) :=
  ⟨by decide,
    (extraction_characterization
      [(chars "a", JsonVal.obj [(chars "b", JsonVal.str (chars "hi"))])]
      (chars "a/b") (JsonVal.str (chars "hi")) (by decide)).1⟩

/-- Counterexample to claim C6 as stated: in the document with the single
empty-string key over an object, the leaf "hi" sits at the key chain
consisting of the empty key then x, whose slash-join is /x; but the empty
accumulated path is falsy, so the program records the bare path x. -/
theorem extraction_emptyKey_counterexample :
    resolveMessages [(chars "", JsonVal.obj [(chars "x", JsonVal.str (chars "hi"))])]
      = [(chars "x", JsonVal.str (chars "hi"))]
    ∧ LeafAt [(chars "", JsonVal.obj [(chars "x", JsonVal.str (chars "hi"))])]
        [chars "", chars "x"] (JsonVal.str (chars "hi"))
    ∧ joinSegs [chars "", chars "x"] = chars "/x"
    ∧ chars "x" ≠ chars "/x" :=
  ⟨by decide,
    LeafAt.nest (List.mem_cons_self _ _) (by decide)
      (LeafAt.strLeaf (List.mem_cons_self _ _) (by decide)),
    by decide, by decide⟩

/-- Claim C7 (confirmed): an invocation whose --to value is in neither the
catalog's long names nor its short names fails option validation before
the action runs: the result is an argument error and the list of backend
calls performed is empty. -/
theorem invalidTo_zero_backendCalls (db : Db) (message : List (List Char))
    (value : List Char) (flag : Bool)
    (h1 : db.longNames.contains value = false)
    (h2 : db.shortNames.contains value = false) :
    cliInvoke db message (some value) flag = ([], .error ()) := by
  rw [cliInvoke, verifyString, h1, h2]
  rfl

/-- Witness for claim C7: against a one-entry catalog (french / fr) the
unrecognized value xx produces zero backend calls and an error. -/
theorem invalidTo_zero_backendCalls_witness :
    (Db.mk none [chars "french"] [chars "fr"]).longNames.contains (chars "xx") = false
    ∧ (Db.mk none [chars "french"] [chars "fr"]).shortNames.contains (chars "xx") = false
    ∧ cliInvoke (Db.mk none [chars "french"] [chars "fr"]) [chars "hello"]
        (some (chars "xx")) false = ([], .error ()) :=
  ⟨by decide, by decide,
    invalidTo_zero_backendCalls (Db.mk none [chars "french"] [chars "fr"])
      [chars "hello"] (chars "xx") false (by decide) (by decide)⟩

/-- Claim C8 (confirmed): if some token of the batch carries an index at
or beyond the length of the original record list, decode-and-rebuild
fails; and whenever it succeeds, every token's index part denotes an
array index at which an original record exists. -/
theorem rebuild_index_range (messages : List (List Char × JsonVal)) (batch : List Char) :
    ((∃ t ∈ jsSplit (chars "//") batch, ∃ n,
        jsArrayIndex? ((jsSplit (chars "==") t).headD []) = some n ∧
        messages.length ≤ n) →
      ∃ e, decodeRebuild messages batch = .error e)
    ∧ ∀ out, decodeRebuild messages batch = .ok out →
        ∀ t ∈ jsSplit (chars "//") batch, ∃ n r,
          jsArrayIndex? ((jsSplit (chars "==") t).headD []) = some n ∧
          messages[n]? = some r :=
  ⟨fun h => decodeFold_error_of_oor (jsSplit (chars "//") batch) messages [] h,
   fun out hok => decodeFold_ok_indices (jsSplit (chars "//") batch) messages [] out hok⟩

/-- Witness for claim C8: the batch 5=="a" against a single-record
original refers to index 5, which is out of range, so decoding fails. -/
theorem rebuild_index_range_witness :
    (∃ t ∈ jsSplit (chars "//") (chars "5==\"a\""), ∃ n,
        jsArrayIndex? ((jsSplit (chars "==") t).headD []) = some n ∧
        ([(chars "p", JsonVal.str (chars "x"))] : List (List Char × JsonVal)).length ≤ n)
    ∧ ∃ e, decodeRebuild [(chars "p", JsonVal.str (chars "x"))] (chars "5==\"a\"")
        = .error e :=
  ⟨⟨chars "5==\"a\"", by decide, 5, by decide, by decide⟩,
   (rebuild_index_range [(chars "p", JsonVal.str (chars "x"))] (chars "5==\"a\"")).1
     ⟨chars "5==\"a\"", by decide, 5, by decide, by decide⟩⟩

/-- Claim C9 (confirmed): the default action and the json file command
leave the stored default language unchanged, and the explicit to
subcommand is the operation that writes it, setting it to its argument. -/
theorem defaultLanguage_frame (db : Db) (message : List (List Char))
    (optTo : Option (List Char)) (flag : Bool) (path : List Char) (data : Obj)
    (translated : List Char) (language : List Char) :
    (runAction db message optTo flag).1.defaultLanguage = db.defaultLanguage
    ∧ (fileCommandJson db path data translated).1.defaultLanguage = db.defaultLanguage
    ∧ (toCommand db language).1.defaultLanguage = some language := by
  refine ⟨?_, rfl, rfl⟩
  rw [runAction]
  by_cases h1 : flag = true
  · rw [if_pos h1]
  · rw [if_neg h1]
    by_cases h2 : (message.isEmpty && optTo.isNone) = true
    · rw [if_pos h2]
    · rw [if_neg h2]
      by_cases h3 : (message.isEmpty && optTo.isSome) = true
      · rw [if_pos h3]
      · rw [if_neg h3]

/-- Claim C10 (corrected): when no key of a well-formed document contains
the path separator AND no key is the empty string, rebuilding from the
extracted records with their own texts reproduces the document's nesting
exactly; for the document with the single key a/b the rebuilt document
nests a then b, differing from the source.  Slash-freedom alone is not
enough: an empty-string key over an object -- slash-free -- also changes
the rebuilt nesting, because the empty accumulated path is falsy and the
recorded path drops the empty key level. -/
theorem slashFree_shape_preservation (data : Obj)
    (hgood : goodFields data = true) (hslash : slashFreeFields data = true)
    (hkeys : neKeysFields data = true) :
    rebuildRecs (resolveMessages data) [] = data
    ∧ rebuildRecs (resolveMessages [(chars "a/b", JsonVal.str (chars "x"))]) []
        = [(chars "a", JsonVal.obj [(chars "b", JsonVal.str (chars "x"))])]
    ∧ ([(chars "a", JsonVal.obj [(chars "b", JsonVal.str (chars "x"))])] : Obj)
        ≠ [(chars "a/b", JsonVal.str (chars "x"))] :=
  ⟨rebuildRecs_resolveMessages data hgood hslash hkeys, by decide, by decide⟩

/-- Witness for claim C10: a concrete nested slash-free document with
non-empty keys is reproduced exactly by the rebuild of its own
extraction. -/
theorem slashFree_shape_preservation_witness :
    goodFields [(chars "a", JsonVal.obj [(chars "b", JsonVal.str (chars "x"))])] = true
    ∧ slashFreeFields
        [(chars "a", JsonVal.obj [(chars "b", JsonVal.str (chars "x"))])] = true
    ∧ neKeysFields
        [(chars "a", JsonVal.obj [(chars "b", JsonVal.str (chars "x"))])] = true
    ∧ rebuildRecs (resolveMessages
        [(chars "a", JsonVal.obj [(chars "b", JsonVal.str (chars "x"))])]) []
      = [(chars "a", JsonVal.obj [(chars "b", JsonVal.str (chars "x"))])] :=
  ⟨by decide, by decide, by decide,
    (slashFree_shape_preservation
      [(chars "a", JsonVal.obj [(chars "b", JsonVal.str (chars "x"))])]
      (by decide) (by decide) (by decide)).1⟩

/-- Counterexample to claim C10 as stated: the document with the single
empty-string key over the object with key x is well formed and no key
contains a slash, yet the program records path x for its leaf and the
rebuild produces the inner object alone, losing the empty-key level. -/
theorem slashFree_shape_counterexample :
    goodFields [(chars "", JsonVal.obj [(chars "x", JsonVal.str (chars "hi"))])] = true
    ∧ slashFreeFields
        [(chars "", JsonVal.obj [(chars "x", JsonVal.str (chars "hi"))])] = true
    ∧ rebuildRecs (resolveMessages
        [(chars "", JsonVal.obj [(chars "x", JsonVal.str (chars "hi"))])]) []
      = [(chars "x", JsonVal.str (chars "hi"))]
    ∧ ([(chars "x", JsonVal.str (chars "hi"))] : Obj)
      ≠ [(chars "", JsonVal.obj [(chars "x", JsonVal.str (chars "hi"))])] := by
  decide
